import Mathlib

/-!
Verification of the query-flow back end's core query pipeline.

The SQL Safety Validator (`app/pipeline/sql/protector.py`), the
execute-with-one-correction loop and schema fallback loop
(`app/services/query_service.py`), the clarification session store
(`app/repositories/clarification_repository.py`), the self-consistency
voting (`app/pipeline/stages/sql_validator.py`) and the clarification
merge (`app/pipeline/stages/intent_analyzer.py`) are embedded below.
Strings are embedded as `List Char`; Python's `re` module behaviour is
modelled on ASCII input (the character classes `\s`, `\w` and `re.I`
case folding are given their ASCII meaning); Python sets are modelled
as lists (only emptiness and membership matter to the embedded code);
external collaborators (the DB connection, the LLM classifier, the ORM
session) are modelled as oracle functions passed in as parameters.
-/

namespace QF

/-- Decidable equality of `Except` values, so that runs of the embedded
functions can be checked on concrete inputs by `decide`. -/
instance {ε α : Type _} [DecidableEq ε] [DecidableEq α] :
    DecidableEq (Except ε α)
  | .ok a, .ok b =>
    if h : a = b then .isTrue (by rw [h]) else .isFalse (by simp [h])
  | .ok _, .error _ => .isFalse (by simp)
  | .error _, .ok _ => .isFalse (by simp)
  | .error e, .error f =>
    if h : e = f then .isTrue (by rw [h]) else .isFalse (by simp [h])

/-- ASCII whitespace, modelling Python's `\s` and `str.strip()` on ASCII input. -/
def isPySpace (c : Char) : Bool :=
  c = ' ' || c = '\t' || c = '\n' || c = '\r' || c = '\x0b' || c = '\x0c'

/-- ASCII word character, modelling the regex class `[a-zA-Z0-9_]` (`\w`). -/
def isWordChar (c : Char) : Bool := c.isAlphanum || c = '_'

/-- Backtick (code point 96) or double quote (code point 34), the regex class
of SQL identifier quotes in `protector.py`'s table-reference pattern. -/
def isQuoteChar (c : Char) : Bool := c = Char.ofNat 96 || c = Char.ofNat 34

/-- Case-insensitive character equality, modelling `re.I` on ASCII. -/
def ciEqChar (a b : Char) : Bool := a.toLower = b.toLower

/-- `startsCI w s`: `s` starts with `w`, case-insensitively. -/
def startsCI : List Char → List Char → Bool
  | [], _ => true
  | _ :: _, [] => false
  | a :: w, b :: s => ciEqChar a b && startsCI w s

/-- The `\b` test on the left of a keyword whose first character is a word
character: satisfied at the start of the string or after a non-word character.
`none` is the start of the string. -/
def prevBoundary : Option Char → Bool
  | none => true
  | some c => !isWordChar c

/-- The `\b` test on the right of a keyword whose last character is a word
character: satisfied at the end of the string or before a non-word character. -/
def afterBoundary : List Char → Bool
  | [] => true
  | c :: _ => !isWordChar c

/-- Whole-word case-insensitive match of `w` at the head of `s`. -/
def matchHere (w s : List Char) : Bool :=
  startsCI w s && afterBoundary (s.drop w.length)

/-- Number of whole-word, case-insensitive occurrences of `w` in the scanned
string, with `prev` the character just before the scanned part (`none` at the
start of the whole string).  This models `re.findall(r"\bw\b", sql, re.I)`'s
match count; `0 < occWB w none s` models `re.search(r"\bw\b", s, re.I)`
succeeding. -/
def occWB (w : List Char) : Option Char → List Char → Nat
  | _, [] => 0
  | prev, c :: rest =>
    (if prevBoundary prev && matchHere w (c :: rest) then 1 else 0) +
      occWB w (some c) rest

/-- The previous-character context after scanning past `s`, starting from
context `prev`: the last character of `s`, or `prev` when `s` is empty. -/
def lastCtx (prev : Option Char) : List Char → Option Char
  | [] => prev
  | c :: s => lastCtx (some c) s

/-! ### The Safety Validator (`proteger_sql_singledb`, protector.py) -/

/-- The keywords of the `SQL_PERIGOSO` pattern
`\b(INSERT|UPDATE|DELETE|MERGE|ALTER|DROP|CREATE|TRUNCATE|GRANT|REVOKE)\b`. -/
def dangerousKeywords : List (List Char) :=
  ["insert".toList, "update".toList, "delete".toList, "merge".toList,
   "alter".toList, "drop".toList, "create".toList, "truncate".toList,
   "grant".toList, "revoke".toList]

/-- `SQL_PERIGOSO.search(sql)` succeeding. -/
def hasDangerous (s : List Char) : Bool :=
  dangerousKeywords.any (fun w => occWB w none s != 0)

/-- `re.search(r"\blimit\b", sql, re.I)` succeeding. -/
def hasLimitWord (s : List Char) : Bool := occWB "limit".toList none s != 0

/-- The `(?:from|join)` alternation of the table-reference pattern: a
case-insensitive `from` or `join` at the head (the pattern has no `\b`). -/
def stripKW (s : List Char) : Option (List Char) :=
  if startsCI "from".toList s then some (s.drop 4)
  else if startsCI "join".toList s then some (s.drop 4)
  else none

/-- One `[`"]?[a-zA-Z0-9_]+[`"]?` unit of the table-reference pattern:
optional quote, maximal run of word characters, optional quote.  Returns the
captured text (quotes included) and the rest.  The quote and word-character
classes are disjoint, so the regex engine's greedy matching with backtracking
reduces to this deterministic parse. -/
def parseUnitCore (q1 s1 : List Char) : Option (List Char × List Char) :=
  let run := s1.takeWhile isWordChar
  if run.isEmpty then none
  else
    match s1.drop run.length with
    | c :: r =>
      if isQuoteChar c then some (q1 ++ run ++ [c], r)
      else some (q1 ++ run, c :: r)
    | [] => some (q1 ++ run, [])

/-- One unit, with the optional opening quote handled first. -/
def parseUnit (s : List Char) : Option (List Char × List Char) :=
  match s with
  | c :: r => if isQuoteChar c then parseUnitCore [c] r else parseUnitCore [] s
  | [] => parseUnitCore [] []

/-- The capture group `((?:[`"]?\w+[`"]?\.)?[`"]?\w+[`"]?)`: an optional
`unit.` qualifier followed by a unit.  If the dot is present but no unit
follows it, the regex engine backtracks and captures the first unit alone. -/
def parseGroup (s : List Char) : Option (List Char × List Char) :=
  match parseUnit s with
  | none => none
  | some (u1, r1) =>
    match r1 with
    | c :: r2 =>
      if c = '.' then
        match parseUnit r2 with
        | some (u2, r3) => some (u1 ++ '.' :: u2, r3)
        | none => some (u1, r1)
      else some (u1, r1)
    | [] => some (u1, r1)

/-- One attempt to match
`(?:from|join)\s+((?:[`"]?\w+[`"]?\.)?[`"]?\w+[`"]?)` at the head of `s`,
returning the capture and the rest of the string after the whole match. -/
def tryMatch (s : List Char) : Option (List Char × List Char) :=
  match stripKW s with
  | none => none
  | some r1 =>
    match r1 with
    | c :: _ =>
      if isPySpace c then parseGroup (r1.dropWhile isPySpace)
      else none
    | [] => none

/-- `re.findall` scanning: try the pattern at each position left to right;
on a match emit the capture and continue after the match.  Written with
explicit fuel (initially the string length) so that it is structural. -/
def findRefsAux : Nat → List Char → List (List Char)
  | 0, _ => []
  | _ + 1, [] => []
  | fuel + 1, c :: rest =>
    match tryMatch (c :: rest) with
    | some (g, r) => g :: findRefsAux fuel r
    | none => findRefsAux fuel rest

/-- The `refs` list of `proteger_sql_singledb`: all captures of the
table-reference pattern over `sql`. -/
def findRefs (s : List Char) : List (List Char) := findRefsAux s.length s

/-- Python `r.strip('`"')`: remove leading and trailing quote characters. -/
def stripQuotes (r : List Char) : List Char :=
  ((r.dropWhile isQuoteChar).reverse.dropWhile isQuoteChar).reverse

/-- Python `str.split(".")`. -/
def splitOnDot : List Char → List (List Char)
  | [] => [[]]
  | c :: rest =>
    if c = '.' then [] :: splitOnDot rest
    else
      match splitOnDot rest with
      | p :: ps => (c :: p) :: ps
      | [] => [[c]]

/-- `split_ref` of `protector.py`: strip quotes from the ends, split on `.`;
two parts give a lowered `(db, table)` pair, otherwise a lone lowered table. -/
def split_ref (r : List Char) : Option (List Char) × List Char :=
  let parts := splitOnDot (stripQuotes r)
  match parts with
  | [a, b] => (some (a.map Char.toLower), b.map Char.toLower)
  | _ => (none, (parts.headD []).map Char.toLower)

/-- The fixed read-only `SYSTEM_SCHEMAS` allow-list. -/
def systemSchemas : List (List Char) :=
  ["information_schema".toList, "performance_schema".toList,
   "mysql".toList, "sys".toList]

/-- The split references of a SQL string. -/
def refsOf (sql : List Char) : List (Option (List Char) × List Char) :=
  (findRefs sql).map split_ref

/-- The `other_dbs` set: qualifiers naming a schema other than the current one
and outside the system allow-list (modelled as a list). -/
def otherDbs (sql db_name : List Char) : List (List Char) :=
  (refsOf sql).filterMap fun p =>
    match p.1 with
    | some db =>
      if db ≠ db_name.map Char.toLower ∧ db ∉ systemSchemas then some db
      else none
    | none => none

/-- The `tables_used` set: table names referenced without a qualifier or
qualified to the current schema (modelled as a list). -/
def tablesUsed (sql db_name : List Char) : List (List Char) :=
  (refsOf sql).filterMap fun p =>
    match p.1 with
    | none => some p.2
    | some db => if db = db_name.map Char.toLower then some p.2 else none

/-- The lowered catalog table names (`{k.lower() for k in catalog["tables"]}`). -/
def knownTables (catalogTables : List (List Char)) : List (List Char) :=
  catalogTables.map (List.map Char.toLower)

/-- The `unknown` set: used tables missing from the catalog. -/
def unknownOf (sql : List Char) (catalogTables : List (List Char))
    (db_name : List Char) : List (List Char) :=
  (tablesUsed sql db_name).filter fun t => t ∉ knownTables catalogTables

/-- Decimal digits of a natural number, modelling Python's `f"{n}"`.
Fuelled so that it is structural. -/
def natDigitsAux : Nat → Nat → List Char → List Char
  | 0, _, acc => acc
  | fuel + 1, n, acc =>
    if n < 10 then Nat.digitChar n :: acc
    else natDigitsAux fuel (n / 10) (Nat.digitChar (n % 10) :: acc)

/-- Decimal representation of `n`. -/
def natDigits (n : Nat) : List Char := natDigitsAux (n + 1) n []

/-- The appended text `f"\nLIMIT {max_linhas}"`. -/
def limitClause (n : Nat) : List Char :=
  '\n' :: 'L' :: 'I' :: 'M' :: 'I' :: 'T' :: ' ' :: natDigits n

/-- Python `sql.strip().endswith(";")`. -/
def endsWithSemi (s : List Char) : Bool :=
  match s.reverse.dropWhile isPySpace with
  | c :: _ => c = ';'
  | [] => false

/-- The error taxonomy of `proteger_sql_singledb`: the three distinct
`HTTPException` details it raises. -/
inductive ProtError where
  /-- "SQL com comandos de escrita/DDL não é permitido." -/
  | dangerous
  /-- "Tabelas desconhecidas (multi-DB não permitido): …" -/
  | multiDB (dbs : List (List Char))
  /-- "Tabela(s) não encontrada(s) em …: …" -/
  | unknownTables (tabs : List (List Char))
deriving DecidableEq

/-- `proteger_sql_singledb(sql, catalog, db_name, max_linhas)` of
`protector.py`: reject write/DDL keywords, reject foreign-schema references,
reject unknown tables, then append `LIMIT` if the word is absent and a
trailing `;` if missing.  The catalog is passed as its table-name list. -/
def proteger_sql_singledb (sql : List Char) (catalogTables : List (List Char))
    (db_name : List Char) (max_linhas : Nat) : Except ProtError (List Char) :=
  if hasDangerous sql then .error .dangerous
  else if otherDbs sql db_name ≠ [] then
    .error (.multiDB (otherDbs sql db_name))
  else if unknownOf sql catalogTables db_name ≠ [] then
    .error (.unknownTables (unknownOf sql catalogTables db_name))
  else
    let sql1 := if hasLimitWord sql then sql else sql ++ limitClause max_linhas
    let sql2 := if endsWithSemi sql1 then sql1 else sql1 ++ [';']
    .ok sql2

/-! ### Execute-with-one-correction (`_execute_sql_with_retry`, query_service.py) -/

/-- Failure of one `_execute_sql_with_retry` run: a validator rejection
(`HTTPException` from `proteger_sql_singledb`) or a database error from the
second execution. -/
inductive RetryError (E : Type) where
  | protectionFailed (e : ProtError)
  | executionFailed (e : E)

/-- What one `_execute_sql_with_retry` run did: its outcome, every statement
it handed to the database in order, and how many times `correct_sql` was
called. -/
structure RetryRun (R E : Type) where
  outcome : Except (RetryError E) R
  executed : List (List Char)
  corrections : Nat

/-- `_execute_sql_with_retry(conn, sql, …)`: validate, execute; on a database
error call `correct_sql` once, re-validate the corrected statement, execute
it, and let a second failure propagate.  The database (`execute`) and the
LLM correction call (`correct`) are oracle parameters. -/
def execute_sql_with_retry {R E : Type} (execute : List Char → Except E R)
    (correct : List Char → E → List Char) (catalogTables : List (List Char))
    (db_name : List Char) (max_linhas : Nat) (sql : List Char) :
    RetryRun R E :=
  match proteger_sql_singledb sql catalogTables db_name max_linhas with
  | .error e => ⟨.error (.protectionFailed e), [], 0⟩
  | .ok safe =>
    match execute safe with
    | .ok r => ⟨.ok r, [safe], 0⟩
    | .error err =>
      match proteger_sql_singledb (correct safe err) catalogTables db_name
          max_linhas with
      | .error e => ⟨.error (.protectionFailed e), [safe], 1⟩
      | .ok safe2 =>
        match execute safe2 with
        | .ok r => ⟨.ok r, [safe, safe2], 1⟩
        | .error e2 => ⟨.error (.executionFailed e2), [safe, safe2], 1⟩

/-! ### Schema fallback loop (`_execute_new_question`, query_service.py) -/

/-- `f"[{schema}] {detail}"`: the schema tag put on a per-schema error. -/
def tagError (schema e : String) : String := "[" ++ schema ++ "] " ++ e

/-- The default detail when no schema was tried at all. -/
def allSchemasFailedMsg : String :=
  "Falha ao executar em todos os schemas permitidos."

/-- The `for schema in schema_order` loop of `_execute_new_question`: try each
schema in order with the attempt oracle (`_execute_on_schema`); remember the
last schema-tagged error; return the first success; when the list is
exhausted raise the last tagged error. -/
def execute_new_question_aux {R : Type} (attempt : String → Except String R) :
    List String → Option String → Except String R
  | [], last => .error (last.getD allSchemasFailedMsg)
  | s :: rest, _ =>
    match attempt s with
    | .ok r => .ok r
    | .error e => execute_new_question_aux attempt rest (some (tagError s e))

/-- `_execute_new_question` restricted to its fallback loop, starting with no
recorded error. -/
def execute_new_question {R : Type} (attempt : String → Except String R)
    (schemas : List String) : Except String R :=
  execute_new_question_aux attempt schemas none

/-! ### Clarification store (`clarification_repository.py`) and
clarification flow (`_execute_clarification`, query_service.py) -/

/-- A stored `ClarificationSession` row.  Timestamps are modelled as naturals;
the serialized intent analysis is irrelevant to the claims and carried as an
opaque string. -/
structure ClarSession where
  id : String
  org_id : String
  user_id : String
  original_question : String
  schema_name : String
  intent_analysis : String
  created_at : Nat
  expires_at : Nat
deriving DecidableEq

/-- The session table, keyed by clarification id. -/
def ClarStore : Type := String → Option ClarSession

/-- The two `HTTPException`s of `ClarificationRepository.get_session`. -/
inductive SessionError where
  /-- "Clarification session not found" -/
  | notFound
  /-- "Clarification session expired" -/
  | expired
deriving DecidableEq

/-- `ClarificationRepository.delete_session`: idempotent removal. -/
def delete_session (store : ClarStore) (cid : String) : ClarStore :=
  fun k => if k = cid then none else store k

/-- `ClarificationRepository.get_session`: absent ids fail with not-found; a
stored session past its expiry is deleted as a side effect and fails with
expired; otherwise the session is returned and the store is untouched. -/
def get_session (store : ClarStore) (now : Nat) (cid : String) :
    Except SessionError ClarSession × ClarStore :=
  match store cid with
  | none => (.error .notFound, store)
  | some s =>
    if s.expires_at < now then (.error .expired, delete_session store cid)
    else (.ok s, store)

/-- Failure of the clarification-answer flow: a session error from the
lookup, or a failure of the downstream pipeline (SQL generation, execution,
enrichment). -/
inductive ClarFlowError (E : Type) where
  | session (e : SessionError)
  | pipeline (e : E)

/-- `_execute_clarification`: load the session; run generation + execution
(+ optional enrichment), modelled by the `pipeline` oracle; delete the
session only after the pipeline succeeded.  A pipeline failure propagates
with the store left as the lookup left it. -/
def execute_clarification {R E : Type} (store : ClarStore) (now : Nat)
    (cid : String) (pipeline : ClarSession → Except E R) :
    Except (ClarFlowError E) R × ClarStore :=
  match get_session store now cid with
  | (.error e, store') => (.error (.session e), store')
  | (.ok sess, store') =>
    match pipeline sess with
    | .error e => (.error (.pipeline e), store')
    | .ok r => (.ok r, delete_session store' cid)

/-! ### Self-consistency voting (`sql_validator.py`) -/

/-- `SQLCandidate` of `app/dtos/query/validation.py`.  Temperatures and
confidences are modelled as rationals. -/
structure SQLCandidate where
  sql : List Char
  temperature : ℚ
  confidence : Option ℚ
  validation_passed : Bool
deriving DecidableEq

/-- `ValidationResult` of `app/dtos/query/validation.py`. -/
structure ValidationResult where
  is_valid : Bool
  must_include : List (List Char)
  must_not : List (List Char)
  suggestions : List (List Char)
  confidence : ℚ
deriving DecidableEq

/-- The prefix of `s` before the first `--`, i.e. `sql.split("--")[0]`. -/
def dropLineComment : List Char → List Char
  | [] => []
  | '-' :: '-' :: _ => []
  | c :: rest => c :: dropLineComment rest

/-- Accumulator pass for Python `str.split()` (split on whitespace runs,
dropping empties). -/
def pyWordsAux : List Char → List Char → List (List Char)
  | [], cur => if cur.isEmpty then [] else [cur.reverse]
  | c :: rest, cur =>
    if isPySpace c then
      if cur.isEmpty then pyWordsAux rest [] else cur.reverse :: pyWordsAux rest []
    else pyWordsAux rest (c :: cur)

/-- Python `str.split()` on ASCII whitespace. -/
def pyWords (s : List Char) : List (List Char) := pyWordsAux s []

/-- Python `" ".join(ws)`. -/
def joinSpace : List (List Char) → List Char
  | [] => []
  | [w] => w
  | w :: ws => w ++ ' ' :: joinSpace ws

/-- Python `s.rstrip(";")`. -/
def rstripSemis (s : List Char) : List Char :=
  (s.reverse.dropWhile (· = ';')).reverse

/-- `_normalize_sql` of `sql_validator.py`: drop the line comment, collapse
whitespace, drop trailing semicolons, lowercase. -/
def normalize_sql (s : List Char) : List Char :=
  (rstripSemis (joinSpace (pyWords (dropLineComment s)))).map Char.toLower

/-- Distinct elements in order of first occurrence: the insertion order of
`collections.Counter`'s keys. -/
def uniqueInOrder (l : List (List Char)) : List (List Char) :=
  l.foldl (fun acc x => if x ∈ acc then acc else acc ++ [x]) []

/-- `Counter(norms).most_common(1)[0][0]`: the key of maximal count; ties are
broken towards the earlier first occurrence (`sorted` is stable and the fold
only replaces on a strictly greater count). -/
def pickMaxKey (norms keys : List (List Char)) (dflt : List Char) :
    List Char :=
  keys.foldl (fun best k => if norms.count best < norms.count k then k else best)
    dflt

/-- Python `min(group, key=lambda c: c.temperature)`: the first element of
minimal temperature. -/
def minByTemp (c : SQLCandidate) (cs : List SQLCandidate) : SQLCandidate :=
  cs.foldl (fun best x => if x.temperature < best.temperature then x else best) c

/-- The normalized SQL of every candidate, in order. -/
def normsOf (cs : List SQLCandidate) : List (List Char) :=
  cs.map fun c => normalize_sql c.sql

/-- The majority normalized SQL (`most_common(1)[0][0]`), with `c0` the first
candidate (whose normalization seeds the fold). -/
def winnerNormOf (c0 : SQLCandidate) (cs : List SQLCandidate) : List Char :=
  pickMaxKey (normsOf cs) (uniqueInOrder (normsOf cs)) (normalize_sql c0.sql)

/-- `vote_best_sql` of `sql_validator.py`: group by normalized SQL, majority
vote with first-occurrence tie-break, then the lowest-temperature member of
the winning group.  The empty list (a `ValueError` in the source) gives
`none`; the inner `[]` case is unreachable. -/
def vote_best_sql (cs : List SQLCandidate) : Option (SQLCandidate × Nat) :=
  match cs with
  | [] => none
  | c0 :: _ =>
    match cs.filter (fun c => normalize_sql c.sql == winnerNormOf c0 cs) with
    | [] => none
    | g0 :: gs =>
      some (minByTemp g0 gs, (normsOf cs).count (winnerNormOf c0 cs))

/-- Python `needle in hay` for strings: substring test. -/
def startsWithList : List Char → List Char → Bool
  | [], _ => true
  | _ :: _, [] => false
  | a :: w, b :: s => a = b && startsWithList w s

/-- Substring containment (`in` on Python strings). -/
def containsSub (needle : List Char) : List Char → Bool
  | [] => needle.isEmpty
  | c :: rest => startsWithList needle (c :: rest) || containsSub needle rest

/-- `validate_sql_against_rules` of `sql_validator.py`: fail if any word of a
`must_not` pattern occurs in the lowered SQL; fail if some `must_include`
pattern has no word longer than 3 characters occurring in it; else pass. -/
def validate_sql_against_rules (sql : List Char) (v : ValidationResult) :
    Bool :=
  let sl := sql.map Char.toLower
  if v.must_not.any (fun pat =>
      (pyWords (pat.map Char.toLower)).any fun w => containsSub w sl) then
    false
  else if v.must_include.any (fun pat =>
      !((pyWords (pat.map Char.toLower)).any fun w =>
          decide (3 < w.length) && containsSub w sl)) then
    false
  else true

/-- `select_best_candidate` of `sql_validator.py`: vote; set the winner's
confidence to votes/total and its validation flag; return it when consensus
(`min_consensus ≤ votes`) and validation agree; otherwise return the first
candidate with a different raw SQL that passes validation, at confidence 1/2;
otherwise fall back to the winner. -/
def select_best_candidate (cs : List SQLCandidate) (v : ValidationResult)
    (min_consensus : Nat) : Option SQLCandidate :=
  match vote_best_sql cs with
  | none => none
  | some (w, votes) =>
    let winner : SQLCandidate :=
      ⟨w.sql, w.temperature, some ((votes : ℚ) / (cs.length : ℚ)),
        validate_sql_against_rules w.sql v⟩
    if min_consensus ≤ votes ∧ validate_sql_against_rules w.sql v then
      some winner
    else
      match cs.find? (fun c =>
          !(c.sql == w.sql) && validate_sql_against_rules c.sql v) with
      | some c => some ⟨c.sql, c.temperature, some ((1 : ℚ) / 2), true⟩
      | none => some winner

/-! ### Clarification merge (`build_clarified_question`, intent_analyzer.py) -/

/-- The `time_period_map` of canonical phrases. -/
def timePeriodMap : List (String × String) :=
  [("today", "de hoje"), ("yesterday", "de ontem"),
   ("last_week", "da última semana"), ("last_month", "do último mês"),
   ("last_year", "do último ano"), ("this_month", "deste mês"),
   ("this_year", "deste ano")]

/-- The `scope_map` of canonical phrases. -/
def scopeMap : List (String × String) :=
  [("all", "todos"), ("by_product", "por produto"),
   ("by_region", "por região"), ("by_customer", "por cliente"),
   ("by_category", "por categoria")]

/-- `m.get(k, k)`: the canonical phrase of a known key, or the value itself. -/
def lookupD (m : List (String × String)) (k : String) : String :=
  (m.lookup k).getD k

/-- The parts appended after the original question: the mapped time period if
present and truthy, then the mapped scope, then every other truthy value
verbatim, in insertion order.  The answers dict is modelled as an
insertion-ordered association list. -/
def clarificationExtras (clarifications : List (String × String)) :
    List String :=
  (match clarifications.lookup "time_period" with
   | some v => if v ≠ "" then [lookupD timePeriodMap v] else []
   | none => []) ++
  (match clarifications.lookup "scope" with
   | some v => if v ≠ "" then [lookupD scopeMap v] else []
   | none => []) ++
  (clarifications.filter fun p =>
      p.1 ≠ "time_period" ∧ p.1 ≠ "scope" ∧ p.2 ≠ "").map Prod.snd

/-- Python `" ".join(parts)`. -/
def pyJoin (sep : String) : List String → String
  | [] => ""
  | [x] => x
  | x :: xs => x ++ sep ++ pyJoin sep xs

/-- `build_clarified_question(original_question, clarifications)` of
`intent_analyzer.py`. -/
def build_clarified_question (q : String)
    (clarifications : List (String × String)) : String :=
  pyJoin " " (q :: clarificationExtras clarifications)

/-! ## Theorems

First the generic lemmas about the word-boundary scan `occWB`, then the
lemmas about the table-reference extraction, then one theorem (and witness)
per claim. -/

theorem lastCtx_nil (prev : Option Char) : lastCtx prev [] = prev := rfl

theorem lastCtx_cons (prev : Option Char) (a : Char) (s : List Char) :
    lastCtx prev (a :: s) = lastCtx (some a) s := rfl

theorem matchHere_nil_left (s : List Char) :
    matchHere [] s = afterBoundary s := by
  simp [matchHere, startsCI]

theorem matchHere_cons_nil (a : Char) (w : List Char) :
    matchHere (a :: w) [] = false := by
  simp [matchHere, startsCI]

theorem matchHere_cons_cons (a c : Char) (w s : List Char) :
    matchHere (a :: w) (c :: s) = (ciEqChar a c && matchHere w s) := by
  simp [matchHere, startsCI, Bool.and_assoc]

/-- Appending text whose first character `h` is neither a word character nor
case-equal to any character of `w` does not change whether a whole-word
match of `w` starts at the head. -/
theorem matchHere_append_inert (w : List Char) (h : Char) (t : List Char)
    (hb : isWordChar h = false)
    (hci : ∀ c ∈ w, ciEqChar c h = false) :
    ∀ s, matchHere w (s ++ h :: t) = matchHere w s := by
  induction w with
  | nil =>
    intro s
    cases s with
    | nil => simp [matchHere_nil_left, afterBoundary, hb]
    | cons c s' => simp [matchHere_nil_left, afterBoundary]
  | cons a w ih =>
    intro s
    cases s with
    | nil =>
      simp [matchHere_cons_nil, matchHere_cons_cons,
        hci a (List.mem_cons_self a w)]
    | cons c s' =>
      have := ih (fun x hx => hci x (List.mem_cons_of_mem a hx)) s'
      simp [matchHere_cons_cons, this]

/-- Splitting the whole-word occurrence count at an inert junction
character. -/
theorem occWB_append_inert (w : List Char) (h : Char) (t : List Char)
    (hb : isWordChar h = false)
    (hci : ∀ c ∈ w, ciEqChar c h = false) :
    ∀ (s : List Char) (prev : Option Char),
      occWB w prev (s ++ h :: t) =
        occWB w prev s + occWB w (lastCtx prev s) (h :: t) := by
  intro s
  induction s with
  | nil => intro prev; simp [occWB, lastCtx_nil]
  | cons c s' ih =>
    intro prev
    have hm := matchHere_append_inert w h t hb hci (c :: s')
    calc occWB w prev ((c :: s') ++ h :: t)
        = (if prevBoundary prev && matchHere w ((c :: s') ++ h :: t) then 1
            else 0) + occWB w (some c) (s' ++ h :: t) := rfl
      _ = (if prevBoundary prev && matchHere w (c :: s') then 1 else 0) +
            (occWB w (some c) s' + occWB w (lastCtx (some c) s') (h :: t)) := by
          rw [hm, ih]
      _ = occWB w prev (c :: s') + occWB w (lastCtx prev (c :: s')) (h :: t) := by
          rw [lastCtx_cons]; show _ = _ + _ + _; omega

/-- A single inert character contains no whole-word occurrence of a
nonempty word. -/
theorem occWB_inert_single (w : List Char) (h : Char)
    (hne : w ≠ []) (hci : ∀ c ∈ w, ciEqChar c h = false) :
    ∀ prev, occWB w prev [h] = 0 := by
  intro prev
  cases w with
  | nil => exact absurd rfl hne
  | cons a w' =>
    have : matchHere (a :: w') [h] = false := by
      simp [matchHere_cons_cons, hci a (List.mem_cons_self a w')]
    simp [occWB, this]

/-- Appending a single inert character does not change the occurrence
count. -/
theorem occWB_append_inert_single (w : List Char) (h : Char)
    (hne : w ≠ []) (hb : isWordChar h = false)
    (hci : ∀ c ∈ w, ciEqChar c h = false) (s : List Char) (prev : Option Char) :
    occWB w prev (s ++ [h]) = occWB w prev s := by
  rw [occWB_append_inert w h [] hb hci s prev,
    occWB_inert_single w h hne hci (lastCtx prev s)]
  omega

/-- If a whole-word match sits at a boundary-respecting junction, the scan
finds at least one occurrence. -/
theorem occWB_ne_zero_of_match (w : List Char) (hw : w ≠ []) :
    ∀ (p : List Char) (prev : Option Char) (t : List Char),
      prevBoundary (lastCtx prev p) = true → matchHere w t = true →
      occWB w prev (p ++ t) ≠ 0 := by
  intro p
  induction p with
  | nil =>
    intro prev t hbnd hm
    rw [lastCtx_nil] at hbnd
    cases t with
    | nil =>
      cases w with
      | nil => exact absurd rfl hw
      | cons a w' => rw [matchHere_cons_nil] at hm; exact absurd hm (by simp)
    | cons c rest =>
      have : occWB w prev (c :: rest) =
          (if prevBoundary prev && matchHere w (c :: rest) then 1 else 0) +
            occWB w (some c) rest := rfl
      rw [List.nil_append, this, hbnd, hm]
      simp
  | cons a p' ih =>
    intro prev t hbnd hm
    rw [lastCtx_cons] at hbnd
    have h2 := ih (some a) t hbnd hm
    have : occWB w prev ((a :: p') ++ t) =
        (if prevBoundary prev && matchHere w ((a :: p') ++ t) then 1 else 0) +
          occWB w (some a) (p' ++ t) := rfl
    rw [this]
    omega

/-- Case-insensitive prefixes: if `w'` lowers to the (lowercase) word `kw`
then `kw` CI-starts every extension of `w'`. -/
theorem startsCI_of_toLower_eq (kw : List Char) (hk : kw.map Char.toLower = kw) :
    ∀ (w' s : List Char), w'.map Char.toLower = kw →
      startsCI kw (w' ++ s) = true := by
  induction kw with
  | nil =>
    intro w' s hw
    have : w' = [] := by
      cases w' with
      | nil => rfl
      | cons a w'' => simp at hw
    simp [this, startsCI]
  | cons k kw' ih =>
    intro w' s hw
    cases w' with
    | nil => simp at hw
    | cons a w'' =>
      simp only [List.map_cons, List.cons.injEq] at hw hk
      have hkl : kw'.map Char.toLower = kw' := hk.2
      have h1 : ciEqChar k a = true := by
        simp only [ciEqChar, hw.1, hk.1, decide_eq_true_eq]
      simp only [List.cons_append, startsCI, h1, Bool.true_and]
      exact ih hkl w'' s hw.2

theorem dangerousKeywords_lc :
    ∀ kw ∈ dangerousKeywords, kw.map Char.toLower = kw := by decide

theorem dangerousKeywords_ne_nil : ∀ kw ∈ dangerousKeywords, kw ≠ [] := by
  decide

/-- C1.  Any SQL string containing one of the ten write/DDL keywords as a
whole word, in any letter case, is rejected by the Safety Validator with the
dangerous-SQL error, whatever the catalog, schema and row cap, and no
validated SQL is produced. -/
theorem c1_guardrail_rejects_dangerous_keyword
    (sql p w s kw : List Char) (catalogTables : List (List Char))
    (db_name : List Char) (max_linhas : Nat)
    (hkw : kw ∈ dangerousKeywords)
    (hdecomp : sql = p ++ w ++ s)
    (hci : w.map Char.toLower = kw)
    (hpre : prevBoundary (lastCtx none p) = true)
    (hpost : afterBoundary s = true) :
    proteger_sql_singledb sql catalogTables db_name max_linhas =
      Except.error ProtError.dangerous := by
  have hkwlc := dangerousKeywords_lc kw hkw
  have hkwne := dangerousKeywords_ne_nil kw hkw
  have hlen : kw.length = w.length := by
    rw [← hci, List.length_map]
  have hmatch : matchHere kw (w ++ s) = true := by
    have h1 : startsCI kw (w ++ s) = true :=
      startsCI_of_toLower_eq kw hkwlc w s hci
    have h2 : (w ++ s).drop kw.length = s := by
      rw [hlen, List.drop_left]
    simp [matchHere, h1, h2, hpost]
  have hocc : occWB kw none (p ++ (w ++ s)) ≠ 0 :=
    occWB_ne_zero_of_match kw hkwne p none (w ++ s) hpre hmatch
  have hd : hasDangerous sql = true := by
    subst hdecomp
    simp only [hasDangerous, List.any_eq_true, bne_iff_ne, ne_eq]
    exact ⟨kw, hkw, by rw [List.append_assoc]; exact hocc⟩
  simp [proteger_sql_singledb, hd]

/-- Witness for C1: `DROP TABLE x` is rejected even though catalog `x`
exists; the decomposition exhibits the whole-word `DROP`. -/
theorem c1_witness :
    proteger_sql_singledb "DROP TABLE x".toList ["x".toList] "d".toList 10 =
      Except.error ProtError.dangerous :=
  c1_guardrail_rejects_dangerous_keyword "DROP TABLE x".toList []
    "DROP".toList " TABLE x".toList "drop".toList ["x".toList] "d".toList 10
    (by decide) (by decide) (by decide) (by decide) (by decide)

/-! ### The LIMIT clause (C3) -/

theorem natDigitsAux_length :
    ∀ (fuel n : Nat) (acc : List Char),
      acc.length ≤ (natDigitsAux fuel n acc).length := by
  intro fuel
  induction fuel with
  | zero => intro n acc; simp [natDigitsAux]
  | succ f ih =>
    intro n acc
    unfold natDigitsAux
    by_cases h : n < 10
    · simp [h]
    · simp only [h, if_false]
      have := ih (n / 10) (Nat.digitChar (n % 10) :: acc)
      simp only [List.length_cons] at this
      omega

theorem natDigits_ne_nil (n : Nat) : natDigits n ≠ [] := by
  have h : 0 < (natDigits n).length := by
    unfold natDigits natDigitsAux
    by_cases h : n < 10
    · simp [h]
    · simp only [h, if_false]
      have := natDigitsAux_length n (n / 10) [Nat.digitChar (n % 10)]
      simp only [List.length_cons, List.length_nil] at this
      omega
  exact List.ne_nil_of_length_pos h

theorem natDigitsAux_mem :
    ∀ (fuel n : Nat) (acc : List Char) (c : Char),
      c ∈ natDigitsAux fuel n acc →
      c ∈ acc ∨ ∃ d, d < 10 ∧ c = Nat.digitChar d := by
  intro fuel
  induction fuel with
  | zero => intro n acc c hc; exact Or.inl hc
  | succ f ih =>
    intro n acc c hc
    unfold natDigitsAux at hc
    by_cases h : n < 10
    · simp only [h, if_true, List.mem_cons] at hc
      rcases hc with hc | hc
      · exact Or.inr ⟨n, h, hc⟩
      · exact Or.inl hc
    · simp only [h, if_false] at hc
      rcases ih (n / 10) (Nat.digitChar (n % 10) :: acc) c hc with hm | hm
      · rcases List.mem_cons.mp hm with hm | hm
        · exact Or.inr ⟨n % 10, Nat.mod_lt n (by omega), hm⟩
        · exact Or.inl hm
      · exact Or.inr hm

theorem digitChar_props (d : Nat) (hd : d < 10) :
    isPySpace (Nat.digitChar d) = false ∧ Nat.digitChar d ≠ ';' ∧
      ciEqChar 'l' (Nat.digitChar d) = false := by
  interval_cases d <;> exact (by decide)

theorem natDigits_props (n : Nat) :
    ∀ c ∈ natDigits n,
      isPySpace c = false ∧ c ≠ ';' ∧ ciEqChar 'l' c = false := by
  intro c hc
  rcases natDigitsAux_mem (n + 1) n [] c hc with h | ⟨d, hd, rfl⟩
  · simp at h
  · exact digitChar_props d hd

/-- No whole-word occurrence of `limit` in a string none of whose characters
is case-insensitively an `l`. -/
theorem occWB_limit_zero (l : List Char)
    (h : ∀ c ∈ l, ciEqChar 'l' c = false) :
    ∀ prev, occWB "limit".toList prev l = 0 := by
  induction l with
  | nil => intro prev; rfl
  | cons c rest ih =>
    intro prev
    have hm : matchHere "limit".toList (c :: rest) = false := by
      have : "limit".toList = 'l' :: "imit".toList := rfl
      rw [this, matchHere_cons_cons, h c (List.mem_cons_self c rest)]
      rfl
    have : occWB "limit".toList prev (c :: rest) =
        (if prevBoundary prev && matchHere "limit".toList (c :: rest) then 1
          else 0) + occWB "limit".toList (some c) rest := rfl
    rw [this, hm]
    have h2 := ih (fun x hx => h x (List.mem_cons_of_mem c hx)) (some c)
    simp only [Bool.and_false, Bool.false_eq_true, if_false, Nat.zero_add]
    exact h2

/-- The appended clause `\nLIMIT {n};` carries exactly one whole-word
occurrence of `limit`, whatever precedes it. -/
theorem occWB_limitClause_semi (n : Nat) (prev : Option Char) :
    occWB "limit".toList prev (limitClause n ++ [';']) = 1 := by
  have htail : occWB "limit".toList (some ' ') (natDigits n ++ [';']) = 0 := by
    refine occWB_limit_zero _ ?_ (some ' ')
    intro c hc
    rcases List.mem_append.mp hc with hc | hc
    · exact (natDigits_props n c hc).2.2
    · simp only [List.mem_singleton] at hc
      rw [hc]; decide
  have hm1 : ∀ X : List Char,
      matchHere "limit".toList ('L' :: 'I' :: 'M' :: 'I' :: 'T' :: ' ' :: X) =
        true := by
    intro X
    have h5 : "limit".toList = 'l' :: 'i' :: 'm' :: 'i' :: 't' :: [] := rfl
    rw [h5, matchHere_cons_cons, matchHere_cons_cons, matchHere_cons_cons,
      matchHere_cons_cons, matchHere_cons_cons, matchHere_nil_left]
    have : afterBoundary (' ' :: X) = true := rfl
    rw [this]
    decide
  have hstep : ∀ (c : Char) (rest : List Char) (pr : Option Char),
      occWB "limit".toList pr (c :: rest) =
        (if prevBoundary pr && matchHere "limit".toList (c :: rest) then 1
          else 0) + occWB "limit".toList (some c) rest := fun _ _ _ => rfl
  have hfalse : ∀ (c : Char), ciEqChar 'l' c = false →
      ∀ rest, matchHere "limit".toList (c :: rest) = false := by
    intro c hc rest
    have : "limit".toList = 'l' :: "imit".toList := rfl
    rw [this, matchHere_cons_cons, hc]
    rfl
  show occWB "limit".toList prev
      ('\n' :: 'L' :: 'I' :: 'M' :: 'I' :: 'T' :: ' ' ::
        (natDigits n ++ [';'])) = 1
  rw [hstep, hfalse '\n' (by decide), hstep, hm1,
    hstep, hfalse 'I' (by decide), hstep, hfalse 'M' (by decide),
    hstep, hfalse 'I' (by decide), hstep, hfalse 'T' (by decide),
    hstep, hfalse ' ' (by decide), htail]
  simp [prevBoundary, isWordChar]

/-- Success of the Safety Validator, unfolded: no dangerous keyword, no
foreign schema, no unknown table, and the output is the input with the LIMIT
clause and terminator policy applied. -/
theorem proteger_ok_iff (sql : List Char) (cat : List (List Char))
    (db : List Char) (n : Nat) (out : List Char) :
    proteger_sql_singledb sql cat db n = Except.ok out ↔
      hasDangerous sql = false ∧ otherDbs sql db = [] ∧
      unknownOf sql cat db = [] ∧
      out = (if endsWithSemi (if hasLimitWord sql then sql
                              else sql ++ limitClause n)
             then (if hasLimitWord sql then sql else sql ++ limitClause n)
             else (if hasLimitWord sql then sql
                   else sql ++ limitClause n) ++ [';']) := by
  unfold proteger_sql_singledb
  by_cases h1 : hasDangerous sql
  · simp [h1]
  · by_cases h2 : otherDbs sql db = []
    · by_cases h3 : unknownOf sql cat db = []
      · simp only [h1, h2, h3, ne_eq, not_true_eq_false, not_false_eq_true,
          Bool.false_eq_true, if_false, if_true, Except.ok.injEq, true_and]
        exact eq_comm
      · simp [h1, h2, h3]
    · simp [h1, h2]

theorem endsWithSemi_append_limitClause (sql : List Char) (n : Nat) :
    endsWithSemi (sql ++ limitClause n) = false := by
  obtain ⟨d, ds, hrev⟩ : ∃ d ds, (natDigits n).reverse = d :: ds := by
    cases h : (natDigits n).reverse with
    | nil =>
      exact absurd (by simpa using congrArg List.reverse h) (natDigits_ne_nil n)
    | cons d ds => exact ⟨d, ds, rfl⟩
  have hd : d ∈ natDigits n := by
    have : d ∈ (natDigits n).reverse := by rw [hrev]; exact List.mem_cons_self d ds
    simpa using this
  obtain ⟨hsp, hsemi, -⟩ := natDigits_props n d hd
  have hlc : limitClause n =
      ['\n', 'L', 'I', 'M', 'I', 'T', ' '] ++ natDigits n := rfl
  rw [endsWithSemi, hlc, ← List.append_assoc, List.reverse_append, hrev]
  have : List.dropWhile isPySpace
      (d :: (ds ++ (sql ++ ['\n', 'L', 'I', 'M', 'I', 'T', ' ']).reverse)) =
      d :: (ds ++ (sql ++ ['\n', 'L', 'I', 'M', 'I', 'T', ' ']).reverse) := by
    rw [List.dropWhile_cons_of_neg]
    simp [hsp]
  rw [List.cons_append, this]
  simpa using hsemi

theorem limit_word_lc : ∀ c ∈ "limit".toList, ciEqChar c ';' = false := by
  decide

/-- C3.  On every accepted SQL without the word `LIMIT`, the validator
returns the input with exactly one appended `LIMIT max_linhas` clause (and
the terminator); on every accepted SQL already containing `LIMIT`, the input
text is untouched (at most a terminator is appended) and its `LIMIT`
occurrences are exactly preserved. -/
theorem c3_limit_policy (sql : List Char) (cat : List (List Char))
    (db : List Char) (n : Nat) (out : List Char)
    (hok : proteger_sql_singledb sql cat db n = Except.ok out) :
    (hasLimitWord sql = false →
      out = sql ++ limitClause n ++ [';'] ∧
      occWB "limit".toList none out = 1) ∧
    (hasLimitWord sql = true →
      (out = sql ∨ out = sql ++ [';']) ∧
      occWB "limit".toList none out = occWB "limit".toList none sql) := by
  rw [proteger_ok_iff] at hok
  obtain ⟨-, -, -, hout⟩ := hok
  constructor
  · intro hnl
    rw [hnl] at hout
    simp only [if_false, Bool.false_eq_true, endsWithSemi_append_limitClause] at hout
    have hocc0 : occWB "limit".toList none sql = 0 := by
      have := hnl
      simp only [hasLimitWord, bne_eq_false_iff_eq] at this
      exact this
    refine ⟨hout, ?_⟩
    have hsplit : sql ++ limitClause n ++ [';'] =
        sql ++ ('\n' :: ('L' :: 'I' :: 'M' :: 'I' :: 'T' :: ' ' ::
          natDigits n ++ [';'])) := by
      simp [limitClause]
    rw [hout, hsplit,
      occWB_append_inert "limit".toList '\n'
        ('L' :: 'I' :: 'M' :: 'I' :: 'T' :: ' ' :: natDigits n ++ [';'])
        (by decide) (by decide) sql none,
      hocc0]
    have := occWB_limitClause_semi n (lastCtx none sql)
    simp only [limitClause, List.cons_append] at this
    simpa using this
  · intro hl
    rw [hl] at hout
    simp only [if_true] at hout
    by_cases he : endsWithSemi sql
    · rw [he] at hout
      simp only [if_true] at hout
      exact ⟨Or.inl hout, by rw [hout]⟩
    · rw [Bool.not_eq_true] at he
      rw [he] at hout
      simp only [Bool.false_eq_true, if_false] at hout
      refine ⟨Or.inr hout, ?_⟩
      rw [hout, occWB_append_inert_single "limit".toList ';' (by decide)
        (by decide) limit_word_lc sql none]

/-- Witness for C3: both branches at concrete inputs. -/
theorem c3_witness :
    ("select id from t".toList ++ limitClause 7 ++ [';'] =
        "select id from t\nLIMIT 7;".toList ∧
      occWB "limit".toList none "select id from t\nLIMIT 7;".toList = 1) ∧
    ("select id from t limit 3".toList ++ [';'] =
        "select id from t limit 3;".toList ∧
      occWB "limit".toList none "select id from t limit 3;".toList =
        occWB "limit".toList none "select id from t limit 3".toList) := by
  constructor
  · have h := (c3_limit_policy "select id from t".toList ["t".toList]
      "d".toList 7 "select id from t\nLIMIT 7;".toList (by decide)).1
      (by decide)
    exact ⟨by decide, h.2⟩
  · have h := (c3_limit_policy "select id from t limit 3".toList ["t".toList]
      "d".toList 7 "select id from t limit 3;".toList (by decide)).2
      (by decide)
    exact ⟨by decide, h.2⟩

/-! ### Unknown tables are a distinct, retryable rejection (C4) -/

/-- C4.  A query that passes the keyword and foreign-schema checks but
references (after FROM/JOIN) a table absent, case-insensitively, from the
current schema's catalog is rejected with the unknown-table error — the
classification the orchestrator lets fall through to the next schema — and
that error is distinct from the hard safety-violation error and from the
multi-DB error. -/
theorem c4_unknown_table_retryable (sql : List Char) (cat : List (List Char))
    (db : List Char) (n : Nat) (t : List Char)
    (hnd : hasDangerous sql = false)
    (hodb : otherDbs sql db = [])
    (ht : t ∈ tablesUsed sql db)
    (hunk : t ∉ knownTables cat) :
    proteger_sql_singledb sql cat db n =
      Except.error (ProtError.unknownTables (unknownOf sql cat db)) ∧
    t ∈ unknownOf sql cat db ∧
    (∀ tabs dbs, ProtError.unknownTables tabs ≠ ProtError.dangerous ∧
      ProtError.unknownTables tabs ≠ ProtError.multiDB dbs) := by
  have hmem : t ∈ unknownOf sql cat db := by
    unfold unknownOf
    exact List.mem_filter.mpr ⟨ht, by simpa using hunk⟩
  have hne : unknownOf sql cat db ≠ [] := by
    intro h
    rw [h] at hmem
    exact absurd hmem (List.not_mem_nil t)
  refine ⟨?_, hmem, fun tabs dbs => ⟨by simp, by simp⟩⟩
  simp [proteger_sql_singledb, hnd, hodb, hne]

/-- Witness for C4: `ghost` is not in the catalog `{real}`. -/
theorem c4_witness :
    proteger_sql_singledb "select * from ghost".toList ["real".toList]
      "d".toList 10 =
      Except.error (ProtError.unknownTables
        (unknownOf "select * from ghost".toList ["real".toList] "d".toList)) :=
  (c4_unknown_table_retryable "select * from ghost".toList ["real".toList]
    "d".toList 10 "ghost".toList (by decide) (by decide) (by decide)
    (by decide)).1

/-! ### Execute-with-one-correction (C2) -/

/-- C2.  In every run of the execute-with-retry step, the corrector is
called at most once; every statement handed to the database came out of a
successful Safety Validator run (the first from the original SQL, the second
from the corrected SQL); and when a second statement was executed and failed,
the run's outcome is that terminal execution error — no third attempt
exists. -/
theorem c2_single_correction_revalidated {R E : Type}
    (execute : List Char → Except E R) (correct : List Char → E → List Char)
    (cat : List (List Char)) (db : List Char) (n : Nat) (sql : List Char) :
    (execute_sql_with_retry execute correct cat db n sql).corrections ≤ 1 ∧
    (∀ s ∈ (execute_sql_with_retry execute correct cat db n sql).executed,
      ∃ q, proteger_sql_singledb q cat db n = Except.ok s) ∧
    (∀ s₁ s₂ rest,
      (execute_sql_with_retry execute correct cat db n sql).executed =
        s₁ :: s₂ :: rest →
      rest = [] ∧ proteger_sql_singledb sql cat db n = Except.ok s₁ ∧
      (∃ e, execute s₁ = Except.error e ∧
        proteger_sql_singledb (correct s₁ e) cat db n = Except.ok s₂) ∧
      (∀ e₂, execute s₂ = Except.error e₂ →
        (execute_sql_with_retry execute correct cat db n sql).outcome =
          Except.error (RetryError.executionFailed e₂))) := by
  unfold execute_sql_with_retry
  cases hp : proteger_sql_singledb sql cat db n with
  | error e => simp
  | ok safe =>
    cases he : execute safe with
    | ok r =>
      simp only [he]
      refine ⟨by simp, ?_, by simp⟩
      intro s hs
      simp only [List.mem_singleton] at hs
      exact ⟨sql, hs ▸ hp⟩
    | error err =>
      simp only [he]
      cases hp2 : proteger_sql_singledb (correct safe err) cat db n with
      | error e2 =>
        simp only [hp2]
        refine ⟨by simp, ?_, by simp⟩
        intro s hs
        simp only [List.mem_singleton] at hs
        exact ⟨sql, hs ▸ hp⟩
      | ok safe2 =>
        simp only [hp2]
        have hexec : ∀ s ∈ [safe, safe2],
            ∃ q, proteger_sql_singledb q cat db n = Except.ok s := by
          intro s hs
          rcases List.mem_cons.mp hs with h | h
          · exact ⟨sql, h ▸ hp⟩
          · simp only [List.mem_singleton] at h
            exact ⟨correct safe err, h ▸ hp2⟩
        cases he2 : execute safe2 with
        | ok r =>
          simp only [he2]
          refine ⟨by simp, hexec, ?_⟩
          intro s₁ s₂ rest hlist
          simp only [List.cons.injEq] at hlist
          obtain ⟨h1, h2, h3⟩ := hlist
          subst h1; subst h2; subst h3
          refine ⟨rfl, rfl, ⟨err, he, hp2⟩, ?_⟩
          intro e₂ habs
          rw [he2] at habs
          exact absurd habs (by simp)
        | error e2 =>
          simp only [he2]
          refine ⟨by simp, hexec, ?_⟩
          intro s₁ s₂ rest hlist
          simp only [List.cons.injEq] at hlist
          obtain ⟨h1, h2, h3⟩ := hlist
          subst h1; subst h2; subst h3
          refine ⟨rfl, rfl, ⟨err, he, hp2⟩, ?_⟩
          intro e₂ habs
          rw [he2] at habs
          have : e2 = e₂ := by
            injection habs
          rw [this]

/-- Witness for C2 at a database that always fails: still at most one
correction. -/
theorem c2_witness :
    (execute_sql_with_retry
      (fun _ => (Except.error () : Except Unit Unit)) (fun s _ => s)
      ["t".toList] "d".toList 5 "select * from t".toList).corrections ≤ 1 :=
  (c2_single_correction_revalidated (fun _ => Except.error ()) (fun s _ => s)
    ["t".toList] "d".toList 5 "select * from t".toList).1

/-! ### Appending a terminator is inert for the reference scan (C5) -/

theorem startsCI_append_inert (w : List Char) (h : Char) (t : List Char)
    (hci : ∀ c ∈ w, ciEqChar c h = false) :
    ∀ s, startsCI w (s ++ h :: t) = startsCI w s := by
  induction w with
  | nil => intro s; cases s <;> rfl
  | cons a w' ih =>
    intro s
    cases s with
    | nil =>
      simp [startsCI, hci a (List.mem_cons_self a w')]
    | cons c s' =>
      simp only [List.cons_append, startsCI]
      congr 1
      exact ih (fun x hx => hci x (List.mem_cons_of_mem a hx)) s'

theorem startsCI_length (w : List Char) :
    ∀ s, startsCI w s = true → w.length ≤ s.length := by
  induction w with
  | nil => intro s _; simp
  | cons a w' ih =>
    intro s hs
    cases s with
    | nil => simp [startsCI] at hs
    | cons c s' =>
      simp only [startsCI, Bool.and_eq_true] at hs
      have := ih s' hs.2
      simp only [List.length_cons]
      omega

theorem stripKW_append_semi (s : List Char) :
    stripKW (s ++ [';']) = (stripKW s).map (fun r => r ++ [';']) := by
  unfold stripKW
  rw [startsCI_append_inert "from".toList ';' [] (by decide) s,
    startsCI_append_inert "join".toList ';' [] (by decide) s]
  by_cases h1 : startsCI "from".toList s = true
  · have h4 : 4 ≤ s.length := by
      have := startsCI_length "from".toList s h1
      simpa using this
    rw [if_pos h1, if_pos h1, List.drop_append_of_le_length h4]
    rfl
  · rw [if_neg h1, if_neg h1]
    by_cases h2 : startsCI "join".toList s = true
    · have h4 : 4 ≤ s.length := by
        have := startsCI_length "join".toList s h2
        simpa using this
      rw [if_pos h2, if_pos h2, List.drop_append_of_le_length h4]
      rfl
    · rw [if_neg h2, if_neg h2]
      rfl

theorem takeWhile_append_single {p : Char → Bool} {h : Char}
    (hp : p h = false) :
    ∀ l : List Char, (l ++ [h]).takeWhile p = l.takeWhile p := by
  intro l
  induction l with
  | nil => simp [List.takeWhile_cons, hp]
  | cons c l' ih =>
    simp only [List.cons_append, List.takeWhile_cons]
    cases hc : p c <;> simp [ih]

theorem dropWhile_append_single {p : Char → Bool} {h : Char}
    (hp : p h = false) :
    ∀ l : List Char, (l ++ [h]).dropWhile p = l.dropWhile p ++ [h] := by
  intro l
  induction l with
  | nil => simp [List.dropWhile_cons, hp]
  | cons c l' ih =>
    simp only [List.cons_append, List.dropWhile_cons]
    cases hc : p c <;> simp [ih]

theorem length_takeWhile_le {p : Char → Bool} :
    ∀ l : List Char, (l.takeWhile p).length ≤ l.length := by
  intro l
  induction l with
  | nil => simp
  | cons c l' ih =>
    rw [List.takeWhile_cons]
    cases hc : p c <;> simp <;> omega

theorem length_dropWhile_le {p : Char → Bool} :
    ∀ l : List Char, (l.dropWhile p).length ≤ l.length := by
  intro l
  induction l with
  | nil => simp
  | cons c l' ih =>
    rw [List.dropWhile_cons]
    cases hc : p c <;> simp <;> omega

theorem parseUnitCore_append_semi (q1 s1 : List Char) :
    parseUnitCore q1 (s1 ++ [';']) =
      (parseUnitCore q1 s1).map (fun pr => (pr.1, pr.2 ++ [';'])) := by
  unfold parseUnitCore
  rw [takeWhile_append_single (by decide) s1]
  by_cases hrun : (s1.takeWhile isWordChar).isEmpty
  · simp [hrun]
  · rw [Bool.not_eq_true] at hrun
    have hlen : (s1.takeWhile isWordChar).length ≤ s1.length :=
      length_takeWhile_le s1
    simp only [hrun, Bool.false_eq_true, if_false,
      List.drop_append_of_le_length hlen]
    cases hs2 : s1.drop (s1.takeWhile isWordChar).length with
    | nil => simp [(show isQuoteChar ';' = false by decide)]
    | cons d r =>
      by_cases hqd : isQuoteChar d <;> simp [hqd]

theorem parseUnit_append_semi (s : List Char) :
    parseUnit (s ++ [';']) =
      (parseUnit s).map (fun pr => (pr.1, pr.2 ++ [';'])) := by
  cases s with
  | nil => decide
  | cons c s0 =>
    show parseUnit (c :: (s0 ++ [';'])) = _
    unfold parseUnit
    by_cases hq : isQuoteChar c
    · simp only [hq, if_true]
      exact parseUnitCore_append_semi [c] s0
    · simp only [hq, Bool.false_eq_true, if_false]
      exact parseUnitCore_append_semi [] (c :: s0)

theorem parseGroup_append_semi (s : List Char) :
    parseGroup (s ++ [';']) =
      (parseGroup s).map (fun pr => (pr.1, pr.2 ++ [';'])) := by
  unfold parseGroup
  rw [parseUnit_append_semi s]
  cases hu : parseUnit s with
  | none => simp
  | some pr =>
    obtain ⟨u1, r1⟩ := pr
    simp only [Option.map_some']
    cases r1 with
    | nil => simp
    | cons d r2 =>
      by_cases hd : d = '.'
      · subst hd
        simp only [List.cons_append, if_pos rfl]
        rw [parseUnit_append_semi r2]
        cases hu2 : parseUnit r2 with
        | none => simp
        | some pr2 =>
          obtain ⟨u2, r3⟩ := pr2
          simp
      · simp [hd]

theorem tryMatch_append_semi (s : List Char) :
    tryMatch (s ++ [';']) = (tryMatch s).map (fun pr => (pr.1, pr.2 ++ [';'])) := by
  unfold tryMatch
  rw [stripKW_append_semi s]
  cases hk : stripKW s with
  | none => simp
  | some r1 =>
    simp only [Option.map_some']
    cases r1 with
    | nil => simp [(show isPySpace ';' = false by decide)]
    | cons c r1' =>
      simp only [List.cons_append]
      by_cases hc : isPySpace c
      · simp only [hc, if_true]
        have : (c :: r1') ++ [';'] = c :: (r1' ++ [';']) := rfl
        rw [← this, dropWhile_append_single (by decide) (c :: r1')]
        exact parseGroup_append_semi _
      · simp [hc]

theorem parseUnitCore_length (q1 s1 u r : List Char)
    (h : parseUnitCore q1 s1 = some (u, r)) : r.length ≤ s1.length := by
  unfold parseUnitCore at h
  by_cases hrun : (s1.takeWhile isWordChar).isEmpty
  · simp [hrun] at h
  · rw [Bool.not_eq_true] at hrun
    simp only [hrun, Bool.false_eq_true, if_false] at h
    have hdl : (s1.drop (s1.takeWhile isWordChar).length).length ≤ s1.length := by
      rw [List.length_drop]
      omega
    cases hs2 : s1.drop (s1.takeWhile isWordChar).length with
    | nil =>
      rw [hs2] at h
      simp only [Option.some.injEq, Prod.mk.injEq] at h
      rw [← h.2]
      simp
    | cons d rr =>
      rw [hs2] at h
      rw [hs2, List.length_cons] at hdl
      by_cases hqd : isQuoteChar d
      · simp only [hqd, if_true, Option.some.injEq, Prod.mk.injEq] at h
        rw [← h.2]
        omega
      · simp only [hqd, Bool.false_eq_true, if_false, Option.some.injEq,
          Prod.mk.injEq] at h
        rw [← h.2, List.length_cons]
        omega

theorem parseUnit_length (s u r : List Char)
    (h : parseUnit s = some (u, r)) : r.length ≤ s.length := by
  cases s with
  | nil =>
    rw [show parseUnit [] = none from rfl] at h
    exact absurd h (by simp)
  | cons c s0 =>
    unfold parseUnit at h
    by_cases hq : isQuoteChar c
    · simp only [hq, if_true] at h
      have := parseUnitCore_length [c] s0 u r h
      simp only [List.length_cons]
      omega
    · simp only [hq, Bool.false_eq_true, if_false] at h
      exact parseUnitCore_length [] (c :: s0) u r h

theorem parseGroup_length (s u r : List Char)
    (h : parseGroup s = some (u, r)) : r.length ≤ s.length := by
  unfold parseGroup at h
  cases hu : parseUnit s with
  | none => rw [hu] at h; exact absurd h (by simp)
  | some pr =>
    obtain ⟨u1, r1⟩ := pr
    have h1 := parseUnit_length s u1 r1 hu
    cases r1 with
    | nil =>
      simp only [hu, Option.some.injEq, Prod.mk.injEq] at h
      rw [← h.2]
      simp
    | cons d r2 =>
      simp only [hu] at h
      by_cases hd : d = '.'
      · subst hd
        rw [if_pos rfl] at h
        cases hu2 : parseUnit r2 with
        | none =>
          simp only [hu2, Option.some.injEq, Prod.mk.injEq] at h
          rw [← h.2]
          exact h1
        | some pr2 =>
          obtain ⟨u2, r3⟩ := pr2
          simp only [hu2, Option.some.injEq, Prod.mk.injEq] at h
          have h2 := parseUnit_length r2 u2 r3 hu2
          rw [← h.2]
          simp only [List.length_cons] at h1
          omega
      · rw [if_neg hd] at h
        simp only [Option.some.injEq, Prod.mk.injEq] at h
        rw [← h.2]
        exact h1

theorem stripKW_some (s r1 : List Char) (h : stripKW s = some r1) :
    r1 = s.drop 4 ∧ 4 ≤ s.length := by
  unfold stripKW at h
  by_cases h1 : startsCI "from".toList s = true
  · rw [if_pos h1, Option.some.injEq] at h
    refine ⟨h.symm, ?_⟩
    have := startsCI_length "from".toList s h1
    simpa using this
  · rw [if_neg h1] at h
    by_cases h2 : startsCI "join".toList s = true
    · rw [if_pos h2, Option.some.injEq] at h
      refine ⟨h.symm, ?_⟩
      have := startsCI_length "join".toList s h2
      simpa using this
    · rw [if_neg h2] at h
      exact absurd h (by simp)

theorem tryMatch_length (s g r : List Char)
    (h : tryMatch s = some (g, r)) : r.length < s.length := by
  unfold tryMatch at h
  cases hk : stripKW s with
  | none => rw [hk] at h; exact absurd h (by simp)
  | some r1 =>
    rw [hk] at h
    obtain ⟨hr1, hs4⟩ := stripKW_some s r1 hk
    have hr1len : r1.length = s.length - 4 := by
      rw [hr1, List.length_drop]
    cases r1 with
    | nil => exact absurd h (by simp)
    | cons c r1' =>
      by_cases hc : isPySpace c
      · simp only [hc, if_true] at h
        have hg := parseGroup_length _ g r h
        have hdw : ((c :: r1').dropWhile isPySpace).length ≤ r1'.length := by
          rw [List.dropWhile_cons, if_pos hc]
          exact length_dropWhile_le r1'
        simp only [List.length_cons] at hr1len
        omega
      · simp [hc] at h

theorem findRefsAux_nil : ∀ f, findRefsAux f [] = [] := by
  intro f
  cases f <;> rfl

/-- Appending one terminator to the SQL does not change the extracted
table references. -/
theorem findRefsAux_append_semi :
    ∀ (f₂ : Nat) (s : List Char) (f₁ : Nat),
      s.length + 1 ≤ f₁ → s.length ≤ f₂ →
      findRefsAux f₁ (s ++ [';']) = findRefsAux f₂ s := by
  intro f₂
  induction f₂ with
  | zero =>
    intro s f₁ h1 h2
    have hs : s = [] := List.eq_nil_of_length_eq_zero (by omega)
    subst hs
    obtain ⟨f₁', rfl⟩ : ∃ k, f₁ = k + 1 := ⟨f₁ - 1, by omega⟩
    show findRefsAux (f₁' + 1) [';'] = findRefsAux 0 []
    have ht : tryMatch [';'] = none := by decide
    simp [findRefsAux, ht, findRefsAux_nil]
  | succ f₂' ih =>
    intro s f₁ h1 h2
    cases s with
    | nil =>
      obtain ⟨f₁', rfl⟩ : ∃ k, f₁ = k + 1 := ⟨f₁ - 1, by omega⟩
      show findRefsAux (f₁' + 1) [';'] = findRefsAux (f₂' + 1) []
      have ht : tryMatch [';'] = none := by decide
      simp [findRefsAux, ht, findRefsAux_nil]
    | cons c rest =>
      obtain ⟨f₁', rfl⟩ : ∃ k, f₁ = k + 1 := ⟨f₁ - 1, by omega⟩
      show findRefsAux (f₁' + 1) (c :: (rest ++ [';'])) =
        findRefsAux (f₂' + 1) (c :: rest)
      have htm := tryMatch_append_semi (c :: rest)
      cases htc : tryMatch (c :: rest) with
      | none =>
        rw [htc] at htm
        simp only [Option.map_none', List.cons_append] at htm
        rw [findRefsAux, findRefsAux]
        simp only [htm, htc]
        simp only [List.length_cons] at h1 h2
        exact ih rest f₁' (by omega) (by omega)
      | some pr =>
        obtain ⟨g, r⟩ := pr
        rw [htc] at htm
        simp only [Option.map_some', List.cons_append] at htm
        have hrlen := tryMatch_length (c :: rest) g r htc
        simp only [List.length_cons] at hrlen h1 h2
        rw [findRefsAux, findRefsAux]
        simp only [htm, htc]
        rw [ih r f₁' (by omega) (by omega)]

theorem findRefs_append_semi (s : List Char) :
    findRefs (s ++ [';']) = findRefs s := by
  unfold findRefs
  rw [List.length_append]
  exact findRefsAux_append_semi s.length s (s.length + 1) (by omega)
    (by omega)

/-- Every validator check is unchanged by appending one terminator. -/
theorem refsOf_append_semi (s : List Char) : refsOf (s ++ [';']) = refsOf s := by
  unfold refsOf
  rw [findRefs_append_semi]

theorem otherDbs_append_semi (s db : List Char) :
    otherDbs (s ++ [';']) db = otherDbs s db := by
  unfold otherDbs
  rw [refsOf_append_semi]

theorem tablesUsed_append_semi (s db : List Char) :
    tablesUsed (s ++ [';']) db = tablesUsed s db := by
  unfold tablesUsed
  rw [refsOf_append_semi]

theorem unknownOf_append_semi (s : List Char) (cat : List (List Char))
    (db : List Char) :
    unknownOf (s ++ [';']) cat db = unknownOf s cat db := by
  unfold unknownOf
  rw [tablesUsed_append_semi]

theorem dangerousKeywords_ci_semi :
    ∀ w ∈ dangerousKeywords, ∀ c ∈ w, ciEqChar c ';' = false := by decide

theorem hasDangerous_append_semi (s : List Char) :
    hasDangerous (s ++ [';']) = hasDangerous s := by
  have h : ∀ w ∈ dangerousKeywords,
      occWB w none (s ++ [';']) = occWB w none s := fun w hw =>
    occWB_append_inert_single w ';' (dangerousKeywords_ne_nil w hw)
      (by decide) (dangerousKeywords_ci_semi w hw) s none
  refine Bool.eq_iff_iff.mpr ?_
  simp only [hasDangerous, List.any_eq_true, bne_iff_ne, ne_eq]
  constructor
  · rintro ⟨w, hw, hocc⟩
    rw [h w hw] at hocc
    exact ⟨w, hw, hocc⟩
  · rintro ⟨w, hw, hocc⟩
    rw [← h w hw] at hocc
    exact ⟨w, hw, hocc⟩

theorem hasLimitWord_append_semi (s : List Char) :
    hasLimitWord (s ++ [';']) = hasLimitWord s := by
  unfold hasLimitWord
  rw [occWB_append_inert_single "limit".toList ';' (by decide) (by decide)
    limit_word_lc s none]

theorem endsWithSemi_append_semi (s : List Char) :
    endsWithSemi (s ++ [';']) = true := by
  unfold endsWithSemi
  rw [List.reverse_append]
  show (match List.dropWhile isPySpace (';' :: s.reverse) with
    | c :: _ => c = ';'
    | [] => false) = true
  rw [List.dropWhile_cons_of_neg (by decide)]
  rfl

/-- C5 (amended).  The Safety Validator is idempotent on every accepted
input that already contains the word `LIMIT`: re-validating the returned
`safe_sql` succeeds and returns it unchanged.  (Idempotence fails in general:
see the counterexample, where the appended `LIMIT` clause is re-parsed as a
table reference.) -/
theorem c5_idempotent_on_limit_inputs (sql : List Char)
    (cat : List (List Char)) (db : List Char) (n : Nat) (out : List Char)
    (hlim : hasLimitWord sql = true)
    (hok : proteger_sql_singledb sql cat db n = Except.ok out) :
    proteger_sql_singledb out cat db n = Except.ok out := by
  rw [proteger_ok_iff] at hok
  obtain ⟨hd, hodb, hunk, hout⟩ := hok
  rw [hlim] at hout
  simp only [if_true] at hout
  by_cases he : endsWithSemi sql
  · rw [he] at hout
    simp only [if_true] at hout
    subst hout
    rw [proteger_ok_iff]
    exact ⟨hd, hodb, hunk, by simp [hlim, he]⟩
  · rw [Bool.not_eq_true] at he
    rw [he] at hout
    simp only [Bool.false_eq_true, if_false] at hout
    subst hout
    rw [proteger_ok_iff]
    refine ⟨?_, ?_, ?_, ?_⟩
    · rw [hasDangerous_append_semi]
      exact hd
    · rw [otherDbs_append_semi]
      exact hodb
    · rw [unknownOf_append_semi]
      exact hunk
    · rw [hasLimitWord_append_semi, hlim]
      simp only [if_true]
      rw [endsWithSemi_append_semi]
      simp

/-- Witness for the amended C5 at a concrete accepted input containing
`LIMIT` but lacking the terminator. -/
theorem c5_witness :
    proteger_sql_singledb "select * from t limit 3;".toList ["t".toList]
      "d".toList 10 =
      Except.ok "select * from t limit 3;".toList :=
  c5_idempotent_on_limit_inputs "select * from t limit 3".toList
    ["t".toList] "d".toList 10 "select * from t limit 3;".toList
    (by decide) (by decide)

/-- Counterexample to C5 as stated: the validator accepts `select 1 from`
(the dangling FROM yields no table reference) and returns it with the LIMIT
clause appended, but re-validating that output fails — the appended `LIMIT`
is parsed as a table name after the dangling FROM and is not in the
catalog. -/
theorem c5_counterexample :
    proteger_sql_singledb "select 1 from".toList ["clients".toList]
      "shop".toList 10 = Except.ok "select 1 from\nLIMIT 10;".toList ∧
    proteger_sql_singledb "select 1 from\nLIMIT 10;".toList
      ["clients".toList] "shop".toList 10 =
      Except.error (ProtError.unknownTables ["limit".toList]) := by
  constructor
  · decide
  · decide

/-! ### Clarification store and flow (C7, C8) -/

theorem get_session_ok (store : ClarStore) (now : Nat) (cid : String)
    (sess : ClarSession)
    (h : (get_session store now cid).1 = Except.ok sess) :
    get_session store now cid = (Except.ok sess, store) := by
  unfold get_session at h ⊢
  cases hs : store cid with
  | none => rw [hs] at h; exact absurd h (by simp)
  | some s =>
    simp only [hs] at h ⊢
    by_cases hexp : s.expires_at < now
    · rw [if_pos hexp] at h
      exact absurd h (by simp)
    · rw [if_neg hexp] at h ⊢
      simp only [Except.ok.injEq] at h
      rw [h]

/-- C8.  Looking up a stored session past its expiry fails with the expired
error — distinct from not-found — and deletes the row, so the same id then
fails with not-found; looking up an absent id fails with not-found. -/
theorem c8_expired_lookup_deletes (store : ClarStore) (now : Nat)
    (cid : String) (sess : ClarSession) :
    (store cid = some sess → sess.expires_at < now →
      get_session store now cid =
        (Except.error SessionError.expired, delete_session store cid) ∧
      (get_session (delete_session store cid) now cid).1 =
        Except.error SessionError.notFound) ∧
    (store cid = none →
      get_session store now cid =
        (Except.error SessionError.notFound, store)) ∧
    SessionError.expired ≠ SessionError.notFound := by
  refine ⟨?_, ?_, by simp⟩
  · intro hs hexp
    constructor
    · unfold get_session
      simp only [hs]
      rw [if_pos hexp]
    · unfold get_session
      have hdel : delete_session store cid cid = none := by
        unfold delete_session
        simp
      simp only [hdel]
  · intro hn
    unfold get_session
    simp only [hn]

/-- Witness for C8 at a concrete expired session. -/
theorem c8_witness :
    get_session
      (fun k => if k = "abc"
        then some ⟨"abc", "org", "usr", "q", "s", "ia", 0, 5⟩ else none)
      10 "abc" =
      (Except.error SessionError.expired,
        delete_session
          (fun k => if k = "abc"
            then some ⟨"abc", "org", "usr", "q", "s", "ia", 0, 5⟩ else none)
          "abc") :=
  ((c8_expired_lookup_deletes
    (fun k => if k = "abc"
      then some ⟨"abc", "org", "usr", "q", "s", "ia", 0, 5⟩ else none)
    10 "abc" ⟨"abc", "org", "usr", "q", "s", "ia", 0, 5⟩).1
    (by simp) (by norm_num)).1

/-- C7.  A clarification session is consumed at most once: a pipeline
failure after a valid lookup leaves the store exactly as it was, while a
success deletes the session, after which the same clarification id fails
with not-found. -/
theorem c7_session_single_use {R E : Type} (store : ClarStore) (now : Nat)
    (cid : String) (pipeline : ClarSession → Except E R) (sess : ClarSession)
    (hget : (get_session store now cid).1 = Except.ok sess) :
    (∀ e, pipeline sess = Except.error e →
      (execute_clarification store now cid pipeline).2 = store ∧
      (execute_clarification store now cid pipeline).1 =
        Except.error (ClarFlowError.pipeline e)) ∧
    (∀ r, pipeline sess = Except.ok r →
      (execute_clarification store now cid pipeline).1 = Except.ok r ∧
      (execute_clarification store now cid pipeline).2 cid = none ∧
      (get_session (execute_clarification store now cid pipeline).2 now
          cid).1 = Except.error SessionError.notFound) := by
  have hpair := get_session_ok store now cid sess hget
  have hdel : delete_session store cid cid = none := by
    unfold delete_session
    simp
  constructor
  · intro e hpipe
    unfold execute_clarification
    rw [hpair]
    simp [hpipe]
  · intro r hpipe
    unfold execute_clarification
    rw [hpair]
    simp only [hpipe]
    refine ⟨by simp, by simpa using hdel, ?_⟩
    unfold get_session
    simp [hdel]

/-- Witness for C7: consuming a live session succeeds and the second lookup
fails with not-found. -/
theorem c7_witness :
    (execute_clarification
      (fun k => if k = "abc"
        then some ⟨"abc", "org", "usr", "q", "s", "ia", 0, 99⟩ else none)
      10 "abc" (fun _ => (Except.ok 42 : Except Unit Nat))).1 =
        Except.ok 42 ∧
    (get_session
      (execute_clarification
        (fun k => if k = "abc"
          then some ⟨"abc", "org", "usr", "q", "s", "ia", 0, 99⟩ else none)
        10 "abc" (fun _ => (Except.ok 42 : Except Unit Nat))).2
      10 "abc").1 = Except.error SessionError.notFound := by
  have h := (c7_session_single_use
    (fun k => if k = "abc"
      then some ⟨"abc", "org", "usr", "q", "s", "ia", 0, 99⟩ else none)
    10 "abc" (fun _ => (Except.ok 42 : Except Unit Nat))
    ⟨"abc", "org", "usr", "q", "s", "ia", 0, 99⟩ rfl).2 42 rfl
  exact ⟨h.1, h.2.2⟩

/-! ### Schema fallback (C9) -/

theorem execute_new_question_aux_ok {R : Type}
    (attempt : String → Except String R) (s : String) (r : R)
    (ha : attempt s = Except.ok r) :
    ∀ (pre : List String) (post : List String) (last : Option String),
      (∀ x ∈ pre, ∃ e, attempt x = Except.error e) →
      execute_new_question_aux attempt (pre ++ s :: post) last =
        Except.ok r := by
  intro pre
  induction pre with
  | nil =>
    intro post last _
    show execute_new_question_aux attempt (s :: post) last = Except.ok r
    unfold execute_new_question_aux
    rw [ha]
  | cons x pre' ih =>
    intro post last hfail
    obtain ⟨e, he⟩ := hfail x (List.mem_cons_self x pre')
    show execute_new_question_aux attempt (x :: (pre' ++ s :: post)) last =
      Except.ok r
    unfold execute_new_question_aux
    rw [he]
    exact ih post (some (tagError x e))
      (fun y hy => hfail y (List.mem_cons_of_mem x hy))

theorem execute_new_question_aux_all_fail {R : Type}
    (attempt : String → Except String R) :
    ∀ (schemas : List String) (last : Option String), schemas ≠ [] →
      (∀ x ∈ schemas, ∃ e, attempt x = Except.error e) →
      ∃ s e, schemas.getLast? = some s ∧ attempt s = Except.error e ∧
        execute_new_question_aux attempt schemas last =
          Except.error (tagError s e) := by
  intro schemas
  induction schemas with
  | nil => intro last h; exact absurd rfl h
  | cons x rest ih =>
    intro last _ hfail
    obtain ⟨e, he⟩ := hfail x (List.mem_cons_self x rest)
    cases rest with
    | nil =>
      refine ⟨x, e, rfl, he, ?_⟩
      show execute_new_question_aux attempt [x] last =
        Except.error (tagError x e)
      unfold execute_new_question_aux
      rw [he]
      rfl
    | cons y rest' =>
      obtain ⟨s, e', hlast, hae, hrun⟩ := ih (some (tagError x e))
        (by simp) (fun z hz => hfail z (List.mem_cons_of_mem x hz))
      refine ⟨s, e', ?_, hae, ?_⟩
      · rw [List.getLast?_cons_cons]
        exact hlast
      · show execute_new_question_aux attempt (x :: y :: rest') last =
          Except.error (tagError s e')
        unfold execute_new_question_aux
        rw [he]
        exact hrun

/-- C9.  The schema fallback loop returns the first succeeding schema's
result untouched — no earlier schema's error appears in it — and only when
every schema fails does it fail, with the last schema's error tagged with
that schema's name. -/
theorem c9_schema_fallback {R : Type} (attempt : String → Except String R) :
    (∀ (pre : List String) (s : String) (post : List String) (r : R),
      (∀ x ∈ pre, ∃ e, attempt x = Except.error e) →
      attempt s = Except.ok r →
      execute_new_question attempt (pre ++ s :: post) = Except.ok r) ∧
    (∀ schemas : List String, schemas ≠ [] →
      (∀ x ∈ schemas, ∃ e, attempt x = Except.error e) →
      ∃ s e, schemas.getLast? = some s ∧ attempt s = Except.error e ∧
        execute_new_question attempt schemas =
          Except.error (tagError s e)) := by
  constructor
  · intro pre s post r hfail ha
    exact execute_new_question_aux_ok attempt s r ha pre post none hfail
  · intro schemas hne hfail
    exact execute_new_question_aux_all_fail attempt schemas none hne hfail

/-- Witness for C9: schema A fails, schema B succeeds, the response is B's
result. -/
theorem c9_witness :
    execute_new_question
      (fun s => if s = "A" then Except.error "table not found"
        else (Except.ok 1 : Except String Nat)) ["A", "B"] = Except.ok 1 := by
  have h := (c9_schema_fallback
    (fun s => if s = "A" then Except.error "table not found"
      else (Except.ok 1 : Except String Nat))).1 ["A"] "B" [] 1
    (by intro x hx
        simp only [List.mem_singleton] at hx
        subst hx
        exact ⟨"table not found", rfl⟩)
    (by rfl)
  exact h

/-! ### Clarification merge (C10) -/

theorem foldl_join_shift (sep : String) :
    ∀ (ys : List String) (x y : String),
      x ++ sep ++ ys.foldl (fun a b => a ++ sep ++ b) y =
        ys.foldl (fun a b => a ++ sep ++ b) (x ++ sep ++ y) := by
  intro ys
  induction ys with
  | nil => intro x y; rfl
  | cons z zs ih =>
    intro x y
    show x ++ sep ++ zs.foldl _ (y ++ sep ++ z) = zs.foldl _ (x ++ sep ++ y ++ sep ++ z)
    rw [ih x (y ++ sep ++ z)]
    congr 1
    simp [String.append_assoc]

theorem pyJoin_eq_foldl (sep : String) :
    ∀ (xs : List String) (x : String),
      pyJoin sep (x :: xs) = xs.foldl (fun a b => a ++ sep ++ b) x := by
  intro xs
  induction xs with
  | nil => intro x; rfl
  | cons y ys ih =>
    intro x
    show x ++ sep ++ pyJoin sep (y :: ys) = (y :: ys).foldl _ x
    rw [ih y]
    exact foldl_join_shift sep ys x y

/-- C10.  Merging clarification answers is the identity on an empty answer
map, and otherwise appends to the untouched original question exactly the
canonical phrase of each known key and every other truthy value verbatim, in
order; the concrete canonical mapping is exhibited on the known keys. -/
theorem c10_clarification_merge :
    (∀ q : String, build_clarified_question q [] = q) ∧
    (∀ (q : String) (cl : List (String × String)),
      build_clarified_question q cl =
        (clarificationExtras cl).foldl (fun acc p => acc ++ " " ++ p) q) ∧
    clarificationExtras
        [("time_period", "last_month"), ("scope", "by_region"),
         ("other", "bar")] = ["do último mês", "por região", "bar"] := by
  refine ⟨fun q => rfl, ?_, rfl⟩
  intro q cl
  exact pyJoin_eq_foldl " " (clarificationExtras cl) q

/-! ### Self-consistency voting (C6) -/

theorem foldl_uniq_mem :
    ∀ (l acc : List (List Char)) (x : List Char),
      (x ∈ l.foldl (fun acc x => if x ∈ acc then acc else acc ++ [x]) acc ↔
        x ∈ acc ∨ x ∈ l) := by
  intro l
  induction l with
  | nil => intro acc x; simp
  | cons y l' ih =>
    intro acc x
    show x ∈ l'.foldl _ (if y ∈ acc then acc else acc ++ [y]) ↔ _
    rw [ih]
    by_cases hy : y ∈ acc
    · rw [if_pos hy]
      constructor
      · rintro (h | h)
        · exact Or.inl h
        · exact Or.inr (List.mem_cons_of_mem y h)
      · rintro (h | h)
        · exact Or.inl h
        · rcases List.mem_cons.mp h with h | h
          · exact Or.inl (by rw [h]; exact hy)
          · exact Or.inr h
    · rw [if_neg hy]
      constructor
      · rintro (h | h)
        · rcases List.mem_append.mp h with h | h
          · exact Or.inl h
          · simp only [List.mem_singleton] at h
            exact Or.inr (h ▸ List.mem_cons_self y l')
        · exact Or.inr (List.mem_cons_of_mem y h)
      · rintro (h | h)
        · exact Or.inl (List.mem_append.mpr (Or.inl h))
        · rcases List.mem_cons.mp h with h | h
          · exact Or.inl (List.mem_append.mpr (Or.inr (by simp [h])))
          · exact Or.inr h

theorem uniqueInOrder_mem (l : List (List Char)) (x : List Char) :
    x ∈ uniqueInOrder l ↔ x ∈ l := by
  unfold uniqueInOrder
  rw [foldl_uniq_mem]
  simp

theorem pickMaxKey_cons (norms : List (List Char)) (k : List Char)
    (ks : List (List Char)) (dflt : List Char) :
    pickMaxKey norms (k :: ks) dflt =
      pickMaxKey norms ks (if norms.count dflt < norms.count k then k else dflt) :=
  rfl

theorem pickMaxKey_mem :
    ∀ (keys norms : List (List Char)) (dflt : List Char),
      pickMaxKey norms keys dflt = dflt ∨ pickMaxKey norms keys dflt ∈ keys := by
  intro keys
  induction keys with
  | nil => intro norms dflt; exact Or.inl rfl
  | cons k ks ih =>
    intro norms dflt
    rw [pickMaxKey_cons]
    rcases ih norms (if norms.count dflt < norms.count k then k else dflt) with
      h | h
    · rw [h]
      by_cases hc : norms.count dflt < norms.count k
      · rw [if_pos hc]
        exact Or.inr (List.mem_cons_self k ks)
      · rw [if_neg hc]
        exact Or.inl rfl
    · exact Or.inr (List.mem_cons_of_mem k h)

theorem pickMaxKey_ge_dflt :
    ∀ (keys norms : List (List Char)) (dflt : List Char),
      norms.count dflt ≤ norms.count (pickMaxKey norms keys dflt) := by
  intro keys
  induction keys with
  | nil => intro norms dflt; exact Nat.le_refl _
  | cons k ks ih =>
    intro norms dflt
    rw [pickMaxKey_cons]
    have h2 := ih norms (if norms.count dflt < norms.count k then k else dflt)
    by_cases hc : norms.count dflt < norms.count k
    · rw [if_pos hc] at h2 ⊢
      omega
    · rw [if_neg hc] at h2 ⊢
      omega

theorem pickMaxKey_ge :
    ∀ (keys norms : List (List Char)) (dflt x : List Char), x ∈ keys →
      norms.count x ≤ norms.count (pickMaxKey norms keys dflt) := by
  intro keys
  induction keys with
  | nil => intro norms dflt x hx; exact absurd hx (List.not_mem_nil x)
  | cons k ks ih =>
    intro norms dflt x hx
    rw [pickMaxKey_cons]
    rcases List.mem_cons.mp hx with h | h
    · subst h
      have h1 := pickMaxKey_ge_dflt ks norms
        (if norms.count dflt < norms.count x then x else dflt)
      by_cases hc : norms.count dflt < norms.count x
      · rw [if_pos hc] at h1 ⊢
        omega
      · rw [if_neg hc] at h1 ⊢
        omega
    · exact ih norms _ x h

theorem minByTemp_cons (c x : SQLCandidate) (cs : List SQLCandidate) :
    minByTemp c (x :: cs) =
      minByTemp (if x.temperature < c.temperature then x else c) cs :=
  rfl

theorem minByTemp_mem : ∀ (cs : List SQLCandidate) (c : SQLCandidate),
    minByTemp c cs ∈ c :: cs := by
  intro cs
  induction cs with
  | nil => intro c; exact List.mem_cons_self c []
  | cons x cs' ih =>
    intro c
    rw [minByTemp_cons]
    by_cases hc : x.temperature < c.temperature
    · rw [if_pos hc]
      have h := ih x
      rcases List.mem_cons.mp h with h | h
      · rw [h]
        exact List.mem_cons_of_mem c (List.mem_cons_self x cs')
      · exact List.mem_cons_of_mem c (List.mem_cons_of_mem x h)
    · rw [if_neg hc]
      have h := ih c
      rcases List.mem_cons.mp h with h | h
      · rw [h]
        exact List.mem_cons_self c (x :: cs')
      · exact List.mem_cons_of_mem c (List.mem_cons_of_mem x h)

theorem minByTemp_le : ∀ (cs : List SQLCandidate) (c x : SQLCandidate),
    x ∈ c :: cs → (minByTemp c cs).temperature ≤ x.temperature := by
  intro cs
  induction cs with
  | nil =>
    intro c x hx
    simp only [List.mem_singleton] at hx
    rw [hx]
    exact le_refl _
  | cons y cs' ih =>
    intro c x hx
    rw [minByTemp_cons]
    by_cases hc : y.temperature < c.temperature
    · rw [if_pos hc]
      rcases List.mem_cons.mp hx with h | h
      · rw [h]
        exact le_trans (ih y y (List.mem_cons_self y cs')) (le_of_lt hc)
      · rcases List.mem_cons.mp h with h | h
        · rw [h]
          exact ih y y (List.mem_cons_self y cs')
        · exact ih y x (List.mem_cons_of_mem y h)
    · rw [if_neg hc]
      rcases List.mem_cons.mp hx with h | h
      · rw [h]
        exact ih c c (List.mem_cons_self c cs')
      · rcases List.mem_cons.mp h with h | h
        · rw [h]
          exact le_trans (ih c c (List.mem_cons_self c cs'))
            (le_of_not_lt hc)
        · exact ih c x (List.mem_cons_of_mem c h)

theorem count_normsOf (cs : List SQLCandidate) (x : List Char) :
    (normsOf cs).count x =
      cs.countP (fun c => normalize_sql c.sql == x) := by
  unfold normsOf
  rw [List.count_eq_countP, List.countP_map]
  rfl

/-- C6.  For every nonempty candidate list the vote returns a member of the
list whose normalized-SQL group is of maximal size, with the least
temperature inside its group, and `votes` the group size; the selection then
returns that winner at confidence votes/total exactly when consensus (≥ 2
votes) and semantic validation agree, otherwise the first differing
candidate passing validation at confidence 1/2, otherwise the winner
regardless.  In particular three candidates with identical normalized SQL at
temperatures 0, 0.1 and 0.15 always elect the 0.0 candidate with 3 votes. -/
theorem c6_voting_selection :
    (∀ (cs : List SQLCandidate) (v : ValidationResult), cs ≠ [] →
      ∃ w votes, vote_best_sql cs = some (w, votes) ∧
        w ∈ cs ∧
        votes = cs.countP
          (fun c => normalize_sql c.sql == normalize_sql w.sql) ∧
        (∀ c ∈ cs, cs.countP
            (fun c' => normalize_sql c'.sql == normalize_sql c.sql) ≤
          votes) ∧
        (∀ c ∈ cs, normalize_sql c.sql = normalize_sql w.sql →
          w.temperature ≤ c.temperature) ∧
        (2 ≤ votes ∧ validate_sql_against_rules w.sql v = true →
          select_best_candidate cs v 2 =
            some ⟨w.sql, w.temperature,
              some ((votes : ℚ) / (cs.length : ℚ)), true⟩) ∧
        (∀ c, ¬(2 ≤ votes ∧ validate_sql_against_rules w.sql v = true) →
          cs.find? (fun c' =>
            !(c'.sql == w.sql) && validate_sql_against_rules c'.sql v) =
            some c →
          select_best_candidate cs v 2 =
            some ⟨c.sql, c.temperature, some ((1 : ℚ) / 2), true⟩) ∧
        (¬(2 ≤ votes ∧ validate_sql_against_rules w.sql v = true) →
          cs.find? (fun c' =>
            !(c'.sql == w.sql) && validate_sql_against_rules c'.sql v) =
            none →
          select_best_candidate cs v 2 =
            some ⟨w.sql, w.temperature,
              some ((votes : ℚ) / (cs.length : ℚ)),
              validate_sql_against_rules w.sql v⟩)) ∧
    (∀ c1 c2 c3 : SQLCandidate,
      c1.temperature = 0 → c2.temperature = 1 / 10 →
      c3.temperature = 3 / 20 →
      normalize_sql c1.sql = normalize_sql c2.sql →
      normalize_sql c1.sql = normalize_sql c3.sql →
      vote_best_sql [c1, c2, c3] = some (c1, 3)) := by
  constructor
  · intro cs v hne
    obtain ⟨c0, cs', rfl⟩ : ∃ c0 cs', cs = c0 :: cs' := by
      cases cs with
      | nil => exact absurd rfl hne
      | cons a l => exact ⟨a, l, rfl⟩
    have hwn_mem : winnerNormOf c0 (c0 :: cs') ∈ normsOf (c0 :: cs') := by
      rcases pickMaxKey_mem (uniqueInOrder (normsOf (c0 :: cs')))
        (normsOf (c0 :: cs')) (normalize_sql c0.sql) with h | h
      · rw [winnerNormOf, h]
        exact List.mem_map_of_mem _ (List.mem_cons_self c0 cs')
      · exact (uniqueInOrder_mem _ _).mp h
    obtain ⟨cw, hcw_mem, hcw_eq⟩ :
        ∃ c ∈ c0 :: cs', normalize_sql c.sql = winnerNormOf c0 (c0 :: cs') := by
      rcases List.mem_map.mp hwn_mem with ⟨c, hc, hceq⟩
      exact ⟨c, hc, hceq⟩
    obtain ⟨g0, gs, hg⟩ : ∃ g0 gs,
        (c0 :: cs').filter
          (fun c => normalize_sql c.sql == winnerNormOf c0 (c0 :: cs')) =
          g0 :: gs := by
      cases hf : (c0 :: cs').filter
          (fun c => normalize_sql c.sql == winnerNormOf c0 (c0 :: cs')) with
      | nil =>
        have : cw ∈ (c0 :: cs').filter
            (fun c => normalize_sql c.sql == winnerNormOf c0 (c0 :: cs')) :=
          List.mem_filter.mpr ⟨hcw_mem, by simp [hcw_eq]⟩
        rw [hf] at this
        exact absurd this (List.not_mem_nil cw)
      | cons a l => exact ⟨a, l, rfl⟩
    have hv : vote_best_sql (c0 :: cs') =
        some (minByTemp g0 gs,
          (normsOf (c0 :: cs')).count (winnerNormOf c0 (c0 :: cs'))) := by
      have heq : vote_best_sql (c0 :: cs') =
          match (c0 :: cs').filter
            (fun c => normalize_sql c.sql == winnerNormOf c0 (c0 :: cs')) with
          | [] => none
          | g0 :: gs =>
            some (minByTemp g0 gs,
              (normsOf (c0 :: cs')).count (winnerNormOf c0 (c0 :: cs'))) := rfl
      rw [heq, hg]
    have hw_group : minByTemp g0 gs ∈ g0 :: gs := minByTemp_mem gs g0
    have hw_filter : minByTemp g0 gs ∈ (c0 :: cs').filter
        (fun c => normalize_sql c.sql == winnerNormOf c0 (c0 :: cs')) := by
      rw [hg]
      exact hw_group
    have hw_mem : minByTemp g0 gs ∈ c0 :: cs' :=
      (List.mem_filter.mp hw_filter).1
    have hw_norm : normalize_sql (minByTemp g0 gs).sql =
        winnerNormOf c0 (c0 :: cs') := by
      have := (List.mem_filter.mp hw_filter).2
      simpa using this
    refine ⟨minByTemp g0 gs,
      (normsOf (c0 :: cs')).count (winnerNormOf c0 (c0 :: cs')), hv, hw_mem,
      ?_, ?_, ?_, ?_, ?_, ?_⟩
    · rw [hw_norm, count_normsOf]
    · intro c hc
      rw [← count_normsOf]
      apply pickMaxKey_ge
      rw [uniqueInOrder_mem]
      exact List.mem_map_of_mem _ hc
    · intro c hc hcn
      have : c ∈ (c0 :: cs').filter
          (fun c => normalize_sql c.sql == winnerNormOf c0 (c0 :: cs')) :=
        List.mem_filter.mpr ⟨hc, by rw [hcn, hw_norm]; simp⟩
      rw [hg] at this
      exact minByTemp_le gs g0 c this
    · intro hcons
      have heq : select_best_candidate (c0 :: cs') v 2 =
          match vote_best_sql (c0 :: cs') with
          | none => none
          | some (w, votes) =>
            if 2 ≤ votes ∧ validate_sql_against_rules w.sql v then
              some ⟨w.sql, w.temperature,
                some ((votes : ℚ) / ((c0 :: cs').length : ℚ)),
                validate_sql_against_rules w.sql v⟩
            else
              match (c0 :: cs').find? (fun c =>
                  !(c.sql == w.sql) && validate_sql_against_rules c.sql v) with
              | some c => some ⟨c.sql, c.temperature, some ((1 : ℚ) / 2), true⟩
              | none => some ⟨w.sql, w.temperature,
                  some ((votes : ℚ) / ((c0 :: cs').length : ℚ)),
                  validate_sql_against_rules w.sql v⟩ := rfl
      rw [heq]
      simp only [hv]
      rw [if_pos hcons, hcons.2]
    · intro c hncons hfind
      have heq : select_best_candidate (c0 :: cs') v 2 =
          match vote_best_sql (c0 :: cs') with
          | none => none
          | some (w, votes) =>
            if 2 ≤ votes ∧ validate_sql_against_rules w.sql v then
              some ⟨w.sql, w.temperature,
                some ((votes : ℚ) / ((c0 :: cs').length : ℚ)),
                validate_sql_against_rules w.sql v⟩
            else
              match (c0 :: cs').find? (fun c =>
                  !(c.sql == w.sql) && validate_sql_against_rules c.sql v) with
              | some c => some ⟨c.sql, c.temperature, some ((1 : ℚ) / 2), true⟩
              | none => some ⟨w.sql, w.temperature,
                  some ((votes : ℚ) / ((c0 :: cs').length : ℚ)),
                  validate_sql_against_rules w.sql v⟩ := rfl
      rw [heq]
      simp only [hv]
      rw [if_neg hncons]
      simp only [hfind]
    · intro hncons hfind
      have heq : select_best_candidate (c0 :: cs') v 2 =
          match vote_best_sql (c0 :: cs') with
          | none => none
          | some (w, votes) =>
            if 2 ≤ votes ∧ validate_sql_against_rules w.sql v then
              some ⟨w.sql, w.temperature,
                some ((votes : ℚ) / ((c0 :: cs').length : ℚ)),
                validate_sql_against_rules w.sql v⟩
            else
              match (c0 :: cs').find? (fun c =>
                  !(c.sql == w.sql) && validate_sql_against_rules c.sql v) with
              | some c => some ⟨c.sql, c.temperature, some ((1 : ℚ) / 2), true⟩
              | none => some ⟨w.sql, w.temperature,
                  some ((votes : ℚ) / ((c0 :: cs').length : ℚ)),
                  validate_sql_against_rules w.sql v⟩ := rfl
      rw [heq]
      simp only [hv]
      rw [if_neg hncons]
      simp only [hfind]
  · intro c1 c2 c3 ht1 ht2 ht3 h12 h13
    have hnorms : normsOf [c1, c2, c3] =
        [normalize_sql c1.sql, normalize_sql c1.sql, normalize_sql c1.sql] := by
      unfold normsOf
      simp [← h12, ← h13]
    have huniq : uniqueInOrder
        [normalize_sql c1.sql, normalize_sql c1.sql, normalize_sql c1.sql] =
        [normalize_sql c1.sql] := by
      simp [uniqueInOrder]
    have hcount : ([normalize_sql c1.sql, normalize_sql c1.sql,
        normalize_sql c1.sql] : List (List Char)).count
        (normalize_sql c1.sql) = 3 := by
      simp [List.count_cons]
    have hwn : winnerNormOf c1 [c1, c2, c3] = normalize_sql c1.sql := by
      simp [winnerNormOf, hnorms, huniq, pickMaxKey]
    have hfil : ([c1, c2, c3] : List SQLCandidate).filter
        (fun c => normalize_sql c.sql == winnerNormOf c1 [c1, c2, c3]) =
        [c1, c2, c3] := by
      rw [hwn]
      simp [List.filter, ← h12, ← h13]
    have hmin : minByTemp c1 [c2, c3] = c1 := by
      have hb : (if c2.temperature < c1.temperature then c2 else c1) = c1 := by
        rw [ht1, ht2, if_neg (by norm_num)]
      show (if c3.temperature <
          (if c2.temperature < c1.temperature then c2 else c1).temperature
        then c3
        else if c2.temperature < c1.temperature then c2 else c1) = c1
      rw [hb, ht1, ht3, if_neg (by norm_num)]
    have heq : vote_best_sql [c1, c2, c3] =
        match ([c1, c2, c3] : List SQLCandidate).filter
          (fun c => normalize_sql c.sql == winnerNormOf c1 [c1, c2, c3]) with
        | [] => none
        | g0 :: gs =>
          some (minByTemp g0 gs,
            (normsOf [c1, c2, c3]).count (winnerNormOf c1 [c1, c2, c3])) := rfl
    rw [heq, hfil]
    show some (minByTemp c1 [c2, c3],
      (normsOf [c1, c2, c3]).count (winnerNormOf c1 [c1, c2, c3])) =
      some (c1, 3)
    rw [hmin, hnorms, hwn, hcount]

/-- Witness for C6: three concrete candidates with identical normalized SQL
at the three generation temperatures elect the 0.0 candidate. -/
theorem c6_witness :
    vote_best_sql
      [⟨"SELECT 1".toList, 0, none, false⟩,
       ⟨"select 1".toList, 1 / 10, none, false⟩,
       ⟨"select  1;".toList, 3 / 20, none, false⟩] =
      some (⟨"SELECT 1".toList, 0, none, false⟩, 3) :=
  c6_voting_selection.2 ⟨"SELECT 1".toList, 0, none, false⟩
    ⟨"select 1".toList, 1 / 10, none, false⟩
    ⟨"select  1;".toList, 3 / 20, none, false⟩ rfl rfl rfl (by decide)
    (by decide)

end QF
